import Mathlib

/-!
Verification of the blocked matrix-multiplication benchmark harness
(packed matmul with mixed scalar/vector kernel strategies).

Doubles are modelled as exact integers: every value the program ever
computes is an integer (the fill produces integers in [1,100] and the
kernels only add and multiply), and the development proves the bounds
under which this exact model coincides with IEEE double arithmetic.
Flat buffers (matrices, pack buffers) are modelled as total functions
from flat indices to values; an out-of-range access is thus visible as
a read/write at an index outside the intended region.
-/

namespace T1Arqavan

/-- A flat buffer of double values, addressed by flat index. -/
abbrev Mem := Nat → Int

/-- Store value `v` at flat index `p`. -/
def upd (m : Mem) (p : Nat) (v : Int) : Mem := fun q => if q = p then v else m q

/-- `loopN n f a` models `for (t = 0; t < n; ++t) a = f t a`:
iterations are applied in order `0, 1, …, n-1`. -/
def loopN {α : Type} (n : Nat) (f : Nat → α → α) (a : α) : α :=
  match n with
  | 0 => a
  | Nat.succ k => f k (loopN k f a)

/-- Sequential accumulation `s = init; for (k = 0; k < n; ++k) s += t k`. -/
def accum (init : Int) (n : Nat) (t : Nat → Int) : Int :=
  loopN n (fun k s => s + t k) init

/-- Pointwise addition of a delta function to a buffer. -/
def addFun (C : Mem) (h : Nat → Int) : Mem := fun p => C p + h p

theorem loopN_zero {α : Type} (f : Nat → α → α) (a : α) : loopN 0 f a = a := rfl

theorem loopN_succ {α : Type} (n : Nat) (f : Nat → α → α) (a : α) :
    loopN (n+1) f a = f n (loopN n f a) := rfl

theorem upd_self (m : Mem) (p : Nat) (v : Int) : upd m p v p = v := by
  simp [upd]

theorem upd_other (m : Mem) (p q : Nat) (v : Int) (h : q ≠ p) : upd m p v q = m q := by
  simp [upd, h]

theorem accum_spec (init : Int) (n : Nat) (t : Nat → Int) :
    accum init n t = init + ∑ k in Finset.range n, t k := by
  induction n with
  | zero => simp [accum, loopN]
  | succ k ih =>
    have : accum init (k+1) t = accum init k t + t k := rfl
    rw [this, ih, Finset.sum_range_succ, add_assoc]

theorem addFun_addFun (C : Mem) (g h : Nat → Int) :
    addFun (addFun C g) h = addFun C (fun p => g p + h p) := by
  funext p
  simp [addFun, add_assoc]

theorem addFun_apply (C : Mem) (h : Nat → Int) (p : Nat) : addFun C h p = C p + h p := rfl

/-- A loop whose every iteration adds a state-independent delta to the
buffer adds the sum of the deltas. -/
theorem loopN_addFun_mem (n : Nat) (step : Nat → Mem → Mem) (h : Nat → Nat → Int)
    (hs : ∀ t, t < n → ∀ C, step t C = addFun C (h t)) (C0 : Mem) :
    loopN n step C0 = addFun C0 (fun p => ∑ t in Finset.range n, h t p) := by
  induction n with
  | zero =>
    funext p; simp [loopN, addFun]
  | succ k ih =>
    have ihk := ih (fun t ht C => hs t (Nat.lt_succ_of_lt ht) C)
    rw [loopN_succ, ihk, hs k (Nat.lt_succ_self k), addFun_addFun]
    funext p
    simp [addFun, Finset.sum_range_succ]

/-- A loop writing `v l` (independent of the evolving buffer) at
consecutive addresses `base, base+1, …, base+m-1` overwrites exactly
that interval. -/
theorem loopN_upd_interval (m base : Nat) (v : Nat → Int) (C : Mem) :
    loopN m (fun l C2 => upd C2 (base + l) (v l)) C
      = fun p => if base ≤ p ∧ p < base + m then v (p - base) else C p := by
  induction m with
  | zero =>
    funext p
    simp only [loopN]
    have h0 : ¬ (base ≤ p ∧ p < base) := by omega
    simp [h0]
  | succ k ih =>
    funext p
    rw [loopN_succ, ih]
    by_cases hp : p = base + k
    · subst hp
      have h1 : base ≤ base + k ∧ base + k < base + (k+1) := by omega
      simp [upd, h1, Nat.add_sub_cancel_left]
    · rw [upd_other _ _ _ _ hp]
      by_cases h2 : base ≤ p ∧ p < base + k
      · have h3 : base ≤ p ∧ p < base + (k+1) := by omega
        simp [h2, h3]
      · have h3 : ¬ (base ≤ p ∧ p < base + (k+1)) := by omega
        simp [h2, h3]

/-- Summing adjacent-interval indicators over chunks `[base+b*k, base+b*k+k)`
for `b < m` gives the indicator of `[base, base + m*k)`. -/
theorem sum_ite_chunks (m k base x : Nat) (v : Int) :
    (∑ b in Finset.range m, if base + b*k ≤ x ∧ x < base + b*k + k then v else 0)
      = if base ≤ x ∧ x < base + m*k then v else 0 := by
  induction m with
  | zero =>
    have h0 : ¬ (base ≤ x ∧ x < base) := by omega
    simp [h0]
  | succ n ih =>
    rw [Finset.sum_range_succ, ih]
    by_cases h1 : base + n*k ≤ x ∧ x < base + n*k + k
    · have h2 : ¬ (base ≤ x ∧ x < base + n*k) := by omega
      have h3 : base ≤ x ∧ x < base + (n+1)*k := by
        constructor
        · omega
        · have : (n+1)*k = n*k + k := by ring
          omega
      simp [h1, h2, h3]
    · by_cases h2 : base ≤ x ∧ x < base + n*k
      · have h3 : base ≤ x ∧ x < base + (n+1)*k := by
          have : (n+1)*k = n*k + k := by ring
          omega
        simp [h1, h2, h3]
      · have h3 : ¬ (base ≤ x ∧ x < base + (n+1)*k) := by
          have : (n+1)*k = n*k + k := by ring
          omega
        simp [h1, h2, h3]

/-- Splitting a range sum at `a`. -/
theorem sum_range_split (a b : Nat) (f : Nat → Int) :
    (∑ i in Finset.range (a + b), f i)
      = (∑ i in Finset.range a, f i) + ∑ j in Finset.range b, f (a + j) := by
  induction b with
  | zero => simp
  | succ n ih =>
    have : a + (n+1) = (a + n) + 1 := by omega
    rw [this, Finset.sum_range_succ, ih, Finset.sum_range_succ, add_assoc]

/-- Regrouping a sum over `m*k` indices into `m` chunks of `k`. -/
theorem sum_range_chunks (m k : Nat) (f : Nat → Int) :
    (∑ i in Finset.range (m*k), f i)
      = ∑ b in Finset.range m, ∑ j in Finset.range k, f (b*k + j) := by
  induction m with
  | zero => simp
  | succ n ih =>
    have h1 : (n+1)*k = n*k + k := by ring
    rw [h1, sum_range_split, ih, Finset.sum_range_succ]

/-! ## Matrix store (src/src/matrix_utils.cpp, src/unnamed/part_004 fill_rand) -/

/-- The deterministic fill value for flat index `i`:
`(double)((i*33 + 7) % 100) + 1.0`. -/
def fillv (i : Nat) : Int := ((i*33 + 7) % 100 : Nat) + 1

/-- `matrix_utils::fill` / `fill_rand`: `for (i = 0; i < N*N; ++i) M[i] = fillv i`. -/
def matrix_fill (M : Mem) (N : Nat) : Mem :=
  loopN (N*N) (fun i M2 => upd M2 i (fillv i)) M

theorem matrix_fill_read (M : Mem) (N p : Nat) (hp : p < N*N) :
    matrix_fill M N p = fillv p := by
  have h := loopN_upd_interval (N*N) 0 fillv M
  simp only [Nat.zero_add, Nat.sub_zero, Nat.zero_le, true_and] at h
  rw [matrix_fill, h]
  simp [hp]

/-! ## Block packer (src/unnamed/part_009 and part_004) -/

/-- `pack_A_block`: `packA[ii*bs + kk] = A[(i0+ii)*N + (k0+kk)]` for `ii, kk < bs`. -/
def pack_A_block (A : Mem) (packA : Mem) (N i0 k0 bs : Nat) : Mem :=
  loopN bs (fun ii prow =>
    loopN bs (fun kk p2 => upd p2 (ii*bs + kk) (A ((i0+ii)*N + (k0+kk)))) prow) packA

/-- `pack_B_block`: `packB[kk*bs + jj] = B[(k0+kk)*N + (j0+jj)]` for `kk, jj < bs`. -/
def pack_B_block (B : Mem) (packB : Mem) (N k0 j0 bs : Nat) : Mem :=
  loopN bs (fun kk prow =>
    loopN bs (fun jj p2 => upd p2 (kk*bs + jj) (B ((k0+kk)*N + (j0+jj)))) prow) packB

theorem row_major_div_mod (bs m r : Nat) (hr : r < bs) :
    (m*bs + r) / bs = m ∧ (m*bs + r) % bs = r := by
  have hbs : 0 < bs := by omega
  constructor
  · rw [mul_comm m bs, Nat.mul_add_div hbs, Nat.div_eq_of_lt hr]
    omega
  · rw [mul_comm m bs, Nat.mul_add_mod, Nat.mod_eq_of_lt hr]

/-- Characterization of the row-major nested packing loop: after `m` rows,
indices below `m*bs` hold the packed values, all others the old contents. -/
theorem nested_pack_general (bs : Nat) (hbs : 0 < bs) (f : Nat → Nat → Int) (P0 : Mem)
    (m : Nat) :
    loopN m (fun i P => loopN bs (fun j P2 => upd P2 (i*bs + j) (f i j)) P) P0
      = fun q => if q < m*bs then f (q/bs) (q%bs) else P0 q := by
  induction m with
  | zero =>
    funext q; simp [loopN]
  | succ n ih =>
    funext q
    rw [loopN_succ, ih, loopN_upd_interval bs (n*bs)]
    by_cases h1 : n*bs ≤ q ∧ q < n*bs + bs
    · have hq : q < (n+1)*bs := by
        have : (n+1)*bs = n*bs + bs := by ring
        omega
      obtain ⟨hdv, hmd⟩ := row_major_div_mod bs n (q - n*bs) (by omega)
      have hqe : n*bs + (q - n*bs) = q := by omega
      rw [hqe] at hdv hmd
      simp [h1, hq, hdv, hmd]
    · have hiff : q < (n+1)*bs ↔ q < n*bs := by
        have : (n+1)*bs = n*bs + bs := by ring
        omega
      simp only [h1, if_false, hiff]

/-- Generic read-back of the row-major nested packing loop. -/
theorem nested_pack_read (bs : Nat) (f : Nat → Nat → Int) (P0 : Mem) (r c : Nat)
    (hr : r < bs) (hc : c < bs) :
    loopN bs (fun i P => loopN bs (fun j P2 => upd P2 (i*bs + j) (f i j)) P) P0 (r*bs + c)
      = f r c := by
  have hbs : 0 < bs := by omega
  rw [nested_pack_general bs hbs f P0 bs]
  have hlt : r*bs + c < bs*bs := by
    have h1 : r*bs + c < (r+1)*bs := by
      have : (r+1)*bs = r*bs + bs := by ring
      omega
    have h2 : (r+1)*bs ≤ bs*bs := by
      have := Nat.mul_le_mul_right bs (Nat.succ_le_of_lt hr)
      simpa using this
    omega
  obtain ⟨hdv, hmd⟩ := row_major_div_mod bs r c hc
  simp [hlt, hdv, hmd]

theorem pack_A_read (A : Mem) (packA : Mem) (N i0 k0 bs : Nat) (ii kk : Nat)
    (h1 : ii < bs) (h2 : kk < bs) :
    pack_A_block A packA N i0 k0 bs (ii*bs + kk) = A ((i0+ii)*N + (k0+kk)) :=
  nested_pack_read bs (fun r c => A ((i0+r)*N + (k0+c))) packA ii kk h1 h2

theorem pack_B_read (B : Mem) (packB : Mem) (N k0 j0 bs : Nat) (kk jj : Nat)
    (h1 : kk < bs) (h2 : jj < bs) :
    pack_B_block B packB N k0 j0 bs (kk*bs + jj) = B ((k0+kk)*N + (j0+jj)) :=
  nested_pack_read bs (fun r c => B ((k0+r)*N + (j0+c))) packB kk jj h1 h2

/-! ## Kernel building blocks

`scalarCol` is one output column of the scalar pattern
(`sum = C[i*N + j0 + j]; for kk: sum += packA[ii*bs+kk]*packB[kk*bs+j]; store`),
`avxChunk` is one 8-wide vector group (load 8 lanes of C, fused
multiply-add reduction over the k-block, store the 8 lanes), and
`interChunk` is one interleaved group of part_000 (8 vector lanes plus one
scalar accumulator, all loaded before the shared k-loop and stored after).
In the exact-value model a lane-wise fused multiply-add reduction is the
per-lane sequential accumulation. -/

def scalarCol (pa pb C : Mem) (N i ii j0 j bs : Nat) : Mem :=
  upd C (i*N + j0 + j)
    (accum (C (i*N + j0 + j)) bs (fun kk => pa (ii*bs + kk) * pb (kk*bs + j)))

def avxChunk (pa pb C : Mem) (N i ii j0 joff bs : Nat) : Mem :=
  loopN 8 (fun l C2 => upd C2 (i*N + j0 + joff + l)
    (accum (C (i*N + j0 + joff + l)) bs
      (fun kk => pa (ii*bs + kk) * pb (kk*bs + (joff + l))))) C

def interChunk (pa pb C : Mem) (N i ii j0 joff bs : Nat) : Mem :=
  let C2 := loopN 8 (fun l Cx => upd Cx (i*N + j0 + joff + l)
    (accum (C (i*N + j0 + joff + l)) bs
      (fun kk => pa (ii*bs + kk) * pb (kk*bs + (joff + l))))) C
  upd C2 (i*N + j0 + joff + 8)
    (accum (C (i*N + j0 + joff + 8)) bs
      (fun kk => pa (ii*bs + kk) * pb (kk*bs + (joff + 8))))

/-- The dot product of packed row `ii` of A with packed column `j` of B. -/
def rowdot (pa pb : Mem) (ii bs j : Nat) : Int :=
  ∑ kk in Finset.range bs, pa (ii*bs + kk) * pb (kk*bs + j)

/-- Delta added to row base `rb` over output columns `[lo, lo+len)`. -/
def rowH (pa pb : Mem) (ii bs rb lo len : Nat) : Nat → Int := fun p =>
  if rb + lo ≤ p ∧ p < rb + lo + len then rowdot pa pb ii bs (p - rb) else 0

theorem rowH_append (pa pb : Mem) (ii bs rb lo a b : Nat) (p : Nat) :
    rowH pa pb ii bs rb lo a p + rowH pa pb ii bs rb (lo + a) b p
      = rowH pa pb ii bs rb lo (a + b) p := by
  unfold rowH
  by_cases h1 : rb + lo ≤ p ∧ p < rb + lo + a
  · have h2 : ¬ (rb + (lo + a) ≤ p ∧ p < rb + (lo + a) + b) := by omega
    have h3 : rb + lo ≤ p ∧ p < rb + lo + (a + b) := by omega
    rw [if_pos h1, if_neg h2, if_pos h3, add_zero]
  · by_cases h2 : rb + (lo + a) ≤ p ∧ p < rb + (lo + a) + b
    · have h3 : rb + lo ≤ p ∧ p < rb + lo + (a + b) := by omega
      rw [if_neg h1, if_pos h2, if_pos h3, zero_add]
    · have h3 : ¬ (rb + lo ≤ p ∧ p < rb + lo + (a + b)) := by omega
      rw [if_neg h1, if_neg h2, if_neg h3, add_zero]

theorem rowH_sum_chunks (pa pb : Mem) (ii bs rb k m : Nat) (p : Nat) :
    (∑ c in Finset.range m, rowH pa pb ii bs rb (c*k) k p)
      = rowH pa pb ii bs rb 0 (m*k) p := by
  unfold rowH
  have h := sum_ite_chunks m k rb p (rowdot pa pb ii bs (p - rb))
  simpa using h

theorem rowH_sum_singles (pa pb : Mem) (ii bs rb start m : Nat) (p : Nat) :
    (∑ r in Finset.range m, rowH pa pb ii bs rb (start + r) 1 p)
      = rowH pa pb ii bs rb start m p := by
  unfold rowH
  have h := sum_ite_chunks m 1 (rb + start) p (rowdot pa pb ii bs (p - rb))
  have hL : ∀ r : Nat,
      (rb + (start + r) ≤ p ∧ p < rb + (start + r) + 1)
        ↔ ((rb + start) + r*1 ≤ p ∧ p < (rb + start) + r*1 + 1) := by
    intro r; omega
  have hR : ((rb + start) ≤ p ∧ p < (rb + start) + m*1)
      ↔ (rb + start ≤ p ∧ p < rb + start + m) := by omega
  calc (∑ r in Finset.range m,
          if rb + (start + r) ≤ p ∧ p < rb + (start + r) + 1
          then rowdot pa pb ii bs (p - rb) else 0)
      = ∑ r in Finset.range m,
          if (rb + start) + r*1 ≤ p ∧ p < (rb + start) + r*1 + 1
          then rowdot pa pb ii bs (p - rb) else 0 := by
        refine Finset.sum_congr rfl (fun r _ => ?_)
        exact if_congr (hL r) rfl rfl
    _ = if (rb + start) ≤ p ∧ p < (rb + start) + m*1
        then rowdot pa pb ii bs (p - rb) else 0 := h
    _ = if rb + start ≤ p ∧ p < rb + start + m
        then rowdot pa pb ii bs (p - rb) else 0 := if_congr hR rfl rfl

theorem scalarCol_addFun (pa pb C : Mem) (N i ii j0 j bs : Nat) :
    scalarCol pa pb C N i ii j0 j bs = addFun C (rowH pa pb ii bs (i*N + j0) j 1) := by
  funext p
  rw [scalarCol]
  by_cases hp : p = i*N + j0 + j
  · subst hp
    rw [upd_self, accum_spec]
    have hcond : i*N + j0 + j ≤ i*N + j0 + j ∧ i*N + j0 + j < i*N + j0 + j + 1 := by omega
    have harg : i*N + j0 + j - (i*N + j0) = j := by omega
    simp [addFun, rowH, hcond, harg, rowdot]
  · rw [upd_other _ _ _ _ hp]
    have hcond : ¬ (i*N + j0 + j ≤ p ∧ p < i*N + j0 + j + 1) := by omega
    simp [addFun, rowH, hcond]

theorem avxChunk_addFun (pa pb C : Mem) (N i ii j0 joff bs : Nat) :
    avxChunk pa pb C N i ii j0 joff bs
      = addFun C (rowH pa pb ii bs (i*N + j0) joff 8) := by
  funext p
  rw [avxChunk, loopN_upd_interval 8 (i*N + j0 + joff)]
  by_cases hc : i*N + j0 + joff ≤ p ∧ p < i*N + j0 + joff + 8
  · have hb : i*N + j0 + joff + (p - (i*N + j0 + joff)) = p := by omega
    have harg : joff + (p - (i*N + j0 + joff)) = p - (i*N + j0) := by omega
    simp only [hc, and_self, if_true, hb, harg, accum_spec]
    simp [addFun, rowH, hc, rowdot]
  · simp only [hc, if_false]
    simp [addFun, rowH, hc]

theorem interChunk_addFun (pa pb C : Mem) (N i ii j0 joff bs : Nat) :
    interChunk pa pb C N i ii j0 joff bs
      = addFun C (rowH pa pb ii bs (i*N + j0) joff 9) := by
  funext p
  rw [interChunk]
  simp only [loopN_upd_interval 8 (i*N + j0 + joff)]
  by_cases hp : p = i*N + j0 + joff + 8
  · subst hp
    rw [upd_self, accum_spec]
    have hcond : i*N + j0 + joff ≤ i*N + j0 + joff + 8
        ∧ i*N + j0 + joff + 8 < i*N + j0 + joff + 9 := by omega
    have harg : joff + 8 = i*N + j0 + joff + 8 - (i*N + j0) := by omega
    simp [addFun, rowH, hcond, ← harg, rowdot]
  · rw [upd_other _ _ _ _ hp]
    by_cases hc : i*N + j0 + joff ≤ p ∧ p < i*N + j0 + joff + 8
    · have hb : i*N + j0 + joff + (p - (i*N + j0 + joff)) = p := by omega
      have harg : joff + (p - (i*N + j0 + joff)) = p - (i*N + j0) := by omega
      have hc9 : i*N + j0 + joff ≤ p ∧ p < i*N + j0 + joff + 9 := by omega
      simp only [hc, and_self, if_true, hb, harg, accum_spec]
      simp [addFun, rowH, hc9, rowdot]
    · have hc9 : ¬ (i*N + j0 + joff ≤ p ∧ p < i*N + j0 + joff + 9) := by omega
      simp only [hc, if_false]
      simp [addFun, rowH, hc9]

/-! ## Kernel strategies -/

/-- The block-kernel shape `(packA, packB, C, N, i0, j0, k0, bs) -> C`. -/
abbrev KernelFn := Mem → Mem → Mem → Nat → Nat → Nat → Nat → Nat → Mem

/-- `matmul_block_scalar` (src/src/scalar_kernel.cpp, packed variant):
triple nested loop, one scalar multiply-add per `(row, col, k)`,
dependent accumulation chain per output element. `k0` is unused, as in
the source. -/
def matmul_block_scalar (pa pb C : Mem) (N i0 j0 k0 bs : Nat) : Mem :=
  loopN bs (fun ii C1 =>
    loopN bs (fun jj C2 => scalarCol pa pb C2 N (i0+ii) ii j0 jj bs) C1) C

/-- `kernel_avx` (src/src/kernel_avx.cpp): for each row, 8 output columns
per vector group, `for (j_off = 0; j_off < bs; j_off += 8)`, i.e.
`ceil(bs/8)` groups; assumes `bs` is a multiple of 8 (source comment). -/
def kernel_avx (pa pb C : Mem) (N i0 j0 k0 bs : Nat) : Mem :=
  loopN bs (fun ii C1 =>
    loopN ((bs+7)/8) (fun c C2 => avxChunk pa pb C2 N (i0+ii) ii j0 (c*8) bs) C1) C

/-- `kernel_hybrid` (src/src/kernel_hybrid.cpp, Makefile defaults
HYBRID_AVX_UNROLL=1, HYBRID_SCALAR_UNROLL=2, so TOTAL_STEP_SIZE=10):
`for (j_off = 0; j_off < bs; j_off += 10)` — `ceil(bs/10)` groups; the
vector part runs unconditionally, only the two scalar columns carry the
`if (current_j_scalar < bs)` bounds check. -/
def kernel_hybrid (pa pb C : Mem) (N i0 j0 k0 bs : Nat) : Mem :=
  loopN bs (fun ii C1 =>
    loopN ((bs+9)/10) (fun c C2 =>
      loopN 2 (fun s C4 =>
        if c*10 + 8 + s < bs then scalarCol pa pb C4 N (i0+ii) ii j0 (c*10 + 8 + s) bs
        else C4)
        (avxChunk pa pb C2 N (i0+ii) ii j0 (c*10) bs)) C1) C

/-- `kernel_hybrid` guarded variant (src/unnamed/part_011, same defaults):
main loop `for (; j_off + 10 <= bs; j_off += 10)` runs only full groups
(`bs / 10` of them, vector part then two scalar columns, no bounds check
needed), and a cleanup loop computes the remaining `bs % 10` columns with
the plain scalar path. -/
def kernel_hybrid_p011 (pa pb C : Mem) (N i0 j0 k0 bs : Nat) : Mem :=
  loopN bs (fun ii C1 =>
    loopN (bs % 10) (fun r C5 =>
      scalarCol pa pb C5 N (i0+ii) ii j0 (bs - bs % 10 + r) bs)
      (loopN (bs / 10) (fun c C2 =>
        loopN 2 (fun s C4 => scalarCol pa pb C4 N (i0+ii) ii j0 (c*10 + 8 + s) bs)
          (avxChunk pa pb C2 N (i0+ii) ii j0 (c*10) bs)) C1)) C

/-- `kernel_interleaved` (src/unnamed/part_000, Makefile defaults
INTERLEAVED_AVX_OPS=1, INTERLEAVED_SCALAR_OPS=1, so TOTAL_STEP_SIZE=9):
main loop `for (; j_off + 9 <= bs; j_off += 9)` over full interleaved
groups (8 vector lanes and one scalar accumulator sharing one k-loop),
then a safe scalar cleanup loop for the remaining `bs % 9` columns. -/
def kernel_interleaved (pa pb C : Mem) (N i0 j0 k0 bs : Nat) : Mem :=
  loopN bs (fun ii C1 =>
    loopN (bs % 9) (fun r C5 =>
      scalarCol pa pb C5 N (i0+ii) ii j0 (bs - bs % 9 + r) bs)
      (loopN (bs / 9) (fun c C2 =>
        interChunk pa pb C2 N (i0+ii) ii j0 (c*9) bs) C1)) C

/-- `matmul_block_avx512` (src/unnamed/part_011, packed variant): its loop
body is textually the loop body of `kernel_avx` (the optional
EXTRA_AVX_HEAT_REPS block is disabled by default and in any case does not
change values: it multiplies by `1e-6` and adds, guarded out at 0 reps). -/
def matmul_block_avx512 : KernelFn := kernel_avx

/-- Modelled from the spec: the registry entry "scalar" points at
`kernel_scalar`, whose translation unit (src/kernel_scalar.cpp, referenced
by the Makefile and declared in include/kernels.h) is not among the
provided sources. The spec describes the scalar strategy as the triple
nested loop with a dependent accumulation chain, which is exactly
`matmul_block_scalar` (src/src/scalar_kernel.cpp). -/
def kernel_scalar : KernelFn := matmul_block_scalar

/-- `kernel_scalar_whole` (src/src/kernel_scalar_whole.cpp): whole-matrix
triple loop, `sum` starts from 0 and `C[i*N+j]` is overwritten. -/
def kernel_scalar_whole (A B C : Mem) (N : Nat) : Mem :=
  loopN N (fun i C1 =>
    loopN N (fun j C2 =>
      upd C2 (i*N + j) (accum 0 N (fun k => A (i*N + k) * B (k*N + j)))) C1) C

/-- The per-block delta of a correct block kernel: inside the `bs`-square
sub-block anchored at `(i0, j0)` it adds the packed-block product entry,
outside it adds nothing. -/
def blockH (pa pb : Mem) (N i0 j0 bs : Nat) : Nat → Int := fun p =>
  if i0 ≤ p / N ∧ p / N < i0 + bs ∧ j0 ≤ p % N ∧ p % N < j0 + bs then
    rowdot pa pb (p / N - i0) bs (p % N - j0)
  else 0

/-- Modelled from the spec: `kernel_blas` (src/unnamed/part_006) forwards
the bs-sized block product to the external `dgemm_` with `beta = 1.0`
("Accumulate onto existing C values"); `dgemm_` itself is an external
collaborator (a full BLAS is explicitly out of scope), modelled as the
exact accumulation of the packed-block product into the C sub-block. -/
def kernel_blas (pa pb C : Mem) (N i0 j0 k0 bs : Nat) : Mem :=
  addFun C (blockH pa pb N i0 j0 bs)

/-- Row deltas over full column range `[0, bs)` for rows `ii < bs` sum to
the block delta. -/
theorem rows_to_blockH (pa pb : Mem) (N i0 j0 bs : Nat) (hN : 0 < N) (hj : j0 + bs ≤ N)
    (p : Nat) :
    (∑ ii in Finset.range bs, rowH pa pb ii bs ((i0+ii)*N + j0) 0 bs p)
      = blockH pa pb N i0 j0 bs p := by
  have hdm := Nat.div_add_mod p N
  have hmlt : p % N < N := Nat.mod_lt p hN
  have key : ∀ ii,
      (((i0+ii)*N + j0 + 0 ≤ p ∧ p < (i0+ii)*N + j0 + 0 + bs)
        ↔ (p / N = i0 + ii ∧ j0 ≤ p % N ∧ p % N < j0 + bs)) := by
    intro ii
    constructor
    · rintro ⟨h1, h2⟩
      have hr : p - (i0+ii)*N < N := by omega
      have hd := row_major_div_mod N (i0+ii) (p - (i0+ii)*N) hr
      have hp2 : (i0+ii)*N + (p - (i0+ii)*N) = p := by omega
      rw [hp2] at hd
      obtain ⟨hdq, hdr⟩ := hd
      exact ⟨hdq, by omega, by omega⟩
    · rintro ⟨h1, h2, h3⟩
      rw [h1, Nat.mul_comm N (i0+ii)] at hdm
      omega
  by_cases hB : i0 ≤ p / N ∧ p / N < i0 + bs ∧ j0 ≤ p % N ∧ p % N < j0 + bs
  · obtain ⟨hb1, hb2, hb3, hb4⟩ := hB
    have hqlt : p / N - i0 < bs := by omega
    have hpq : p / N = i0 + (p / N - i0) := by omega
    have hp2 : (i0 + (p / N - i0))*N + p % N = p := by
      rw [Nat.mul_comm N (p / N)] at hdm
      rw [← hpq]
      exact hdm
    simp only [blockH]
    rw [if_pos ⟨hb1, hb2, hb3, hb4⟩]
    rw [Finset.sum_eq_single (p / N - i0)]
    · simp only [rowH]
      rw [if_pos ((key (p / N - i0)).mpr ⟨hpq, hb3, hb4⟩)]
      have harg : p - ((i0 + (p / N - i0))*N + j0) = p % N - j0 := by omega
      rw [harg]
    · intro b hb hbq
      simp only [rowH]
      rw [if_neg]
      intro hcond
      have hk := (key b).mp hcond
      refine hbq ?_
      rw [hk.1]
      omega
    · intro hq
      exact absurd (Finset.mem_range.mpr hqlt) hq
  · simp only [blockH]
    rw [if_neg hB]
    refine Finset.sum_eq_zero fun ii hii => ?_
    have hiib := Finset.mem_range.mp hii
    simp only [rowH]
    rw [if_neg]
    intro hcond
    have hk := (key ii).mp hcond
    refine hB ⟨?_, ?_, hk.2.1, hk.2.2⟩
    · rw [hk.1]; omega
    · rw [hk.1]; omega

/-! ## Per-kernel characterization: each block kernel adds `blockH` -/

theorem scalar_row_addFun (pa pb : Mem) (N i0 ii j0 bs : Nat) (C1 : Mem) :
    loopN bs (fun jj C2 => scalarCol pa pb C2 N (i0+ii) ii j0 jj bs) C1
      = addFun C1 (rowH pa pb ii bs ((i0+ii)*N + j0) 0 bs) := by
  rw [loopN_addFun_mem bs _ (fun jj => rowH pa pb ii bs ((i0+ii)*N + j0) jj 1)
    (fun jj _ C2 => scalarCol_addFun pa pb C2 N (i0+ii) ii j0 jj bs)]
  funext p
  simp only [addFun]
  congr 1
  have h := rowH_sum_singles pa pb ii bs ((i0+ii)*N + j0) 0 bs p
  simp only [Nat.zero_add] at h
  exact h

theorem avx_row_addFun (pa pb : Mem) (N i0 ii j0 bs : Nat) (h8 : 8 ∣ bs) (C1 : Mem) :
    loopN ((bs+7)/8) (fun c C2 => avxChunk pa pb C2 N (i0+ii) ii j0 (c*8) bs) C1
      = addFun C1 (rowH pa pb ii bs ((i0+ii)*N + j0) 0 bs) := by
  obtain ⟨q, hq⟩ := h8
  have hcnt : (bs+7)/8 = q := by omega
  have hq8 : q*8 = bs := by omega
  rw [loopN_addFun_mem ((bs+7)/8) _ (fun c => rowH pa pb ii bs ((i0+ii)*N + j0) (c*8) 8)
    (fun c _ C2 => avxChunk_addFun pa pb C2 N (i0+ii) ii j0 (c*8) bs)]
  funext p
  simp only [addFun]
  congr 1
  rw [hcnt, rowH_sum_chunks pa pb ii bs ((i0+ii)*N + j0) 8 q p, hq8]

theorem hybrid_chunk_addFun (pa pb : Mem) (N i0 ii j0 bs c : Nat) (C2 : Mem) :
    loopN 2 (fun s C4 => scalarCol pa pb C4 N (i0+ii) ii j0 (c*10 + 8 + s) bs)
      (avxChunk pa pb C2 N (i0+ii) ii j0 (c*10) bs)
      = addFun C2 (rowH pa pb ii bs ((i0+ii)*N + j0) (c*10) 10) := by
  rw [avxChunk_addFun]
  rw [loopN_addFun_mem 2 _ (fun s => rowH pa pb ii bs ((i0+ii)*N + j0) (c*10 + 8 + s) 1)
    (fun s _ C4 => scalarCol_addFun pa pb C4 N (i0+ii) ii j0 (c*10 + 8 + s) bs)]
  rw [addFun_addFun]
  funext p
  simp only [addFun]
  congr 1
  rw [rowH_sum_singles pa pb ii bs ((i0+ii)*N + j0) (c*10 + 8) 2 p]
  exact rowH_append pa pb ii bs ((i0+ii)*N + j0) (c*10) 8 2 p

theorem hybrid_p011_row_addFun (pa pb : Mem) (N i0 ii j0 bs : Nat) (C1 : Mem) :
    loopN (bs % 10) (fun r C5 => scalarCol pa pb C5 N (i0+ii) ii j0 (bs - bs % 10 + r) bs)
      (loopN (bs / 10) (fun c C2 =>
        loopN 2 (fun s C4 => scalarCol pa pb C4 N (i0+ii) ii j0 (c*10 + 8 + s) bs)
          (avxChunk pa pb C2 N (i0+ii) ii j0 (c*10) bs)) C1)
      = addFun C1 (rowH pa pb ii bs ((i0+ii)*N + j0) 0 bs) := by
  rw [loopN_addFun_mem (bs / 10) _ (fun c => rowH pa pb ii bs ((i0+ii)*N + j0) (c*10) 10)
    (fun c _ C2 => hybrid_chunk_addFun pa pb N i0 ii j0 bs c C2)]
  rw [loopN_addFun_mem (bs % 10) _
    (fun r => rowH pa pb ii bs ((i0+ii)*N + j0) (bs - bs % 10 + r) 1)
    (fun r _ C5 => scalarCol_addFun pa pb C5 N (i0+ii) ii j0 (bs - bs % 10 + r) bs)]
  rw [addFun_addFun]
  funext p
  simp only [addFun]
  congr 1
  rw [rowH_sum_chunks pa pb ii bs ((i0+ii)*N + j0) 10 (bs / 10) p]
  rw [rowH_sum_singles pa pb ii bs ((i0+ii)*N + j0) (bs - bs % 10) (bs % 10) p]
  have he : bs - bs % 10 = 0 + (bs / 10)*10 := by omega
  rw [he, rowH_append pa pb ii bs ((i0+ii)*N + j0) 0 ((bs / 10)*10) (bs % 10) p]
  have hfin : (bs / 10)*10 + bs % 10 = bs := by omega
  rw [hfin]

theorem interleaved_row_addFun (pa pb : Mem) (N i0 ii j0 bs : Nat) (C1 : Mem) :
    loopN (bs % 9) (fun r C5 => scalarCol pa pb C5 N (i0+ii) ii j0 (bs - bs % 9 + r) bs)
      (loopN (bs / 9) (fun c C2 => interChunk pa pb C2 N (i0+ii) ii j0 (c*9) bs) C1)
      = addFun C1 (rowH pa pb ii bs ((i0+ii)*N + j0) 0 bs) := by
  rw [loopN_addFun_mem (bs / 9) _ (fun c => rowH pa pb ii bs ((i0+ii)*N + j0) (c*9) 9)
    (fun c _ C2 => interChunk_addFun pa pb C2 N (i0+ii) ii j0 (c*9) bs)]
  rw [loopN_addFun_mem (bs % 9) _
    (fun r => rowH pa pb ii bs ((i0+ii)*N + j0) (bs - bs % 9 + r) 1)
    (fun r _ C5 => scalarCol_addFun pa pb C5 N (i0+ii) ii j0 (bs - bs % 9 + r) bs)]
  rw [addFun_addFun]
  funext p
  simp only [addFun]
  congr 1
  rw [rowH_sum_chunks pa pb ii bs ((i0+ii)*N + j0) 9 (bs / 9) p]
  rw [rowH_sum_singles pa pb ii bs ((i0+ii)*N + j0) (bs - bs % 9) (bs % 9) p]
  have he : bs - bs % 9 = 0 + (bs / 9)*9 := by omega
  rw [he, rowH_append pa pb ii bs ((i0+ii)*N + j0) 0 ((bs / 9)*9) (bs % 9) p]
  have hfin : (bs / 9)*9 + bs % 9 = bs := by omega
  rw [hfin]

theorem matmul_block_scalar_spec (pa pb C : Mem) (N i0 j0 k0 bs : Nat) (hN : 0 < N)
    (hj : j0 + bs ≤ N) :
    matmul_block_scalar pa pb C N i0 j0 k0 bs = addFun C (blockH pa pb N i0 j0 bs) := by
  rw [matmul_block_scalar]
  rw [loopN_addFun_mem bs _ (fun ii => rowH pa pb ii bs ((i0+ii)*N + j0) 0 bs)
    (fun ii _ C1 => scalar_row_addFun pa pb N i0 ii j0 bs C1)]
  funext p
  simp only [addFun]
  congr 1
  exact rows_to_blockH pa pb N i0 j0 bs hN hj p

theorem kernel_avx_spec (pa pb C : Mem) (N i0 j0 k0 bs : Nat) (hN : 0 < N)
    (hj : j0 + bs ≤ N) (h8 : 8 ∣ bs) :
    kernel_avx pa pb C N i0 j0 k0 bs = addFun C (blockH pa pb N i0 j0 bs) := by
  rw [kernel_avx]
  rw [loopN_addFun_mem bs _ (fun ii => rowH pa pb ii bs ((i0+ii)*N + j0) 0 bs)
    (fun ii _ C1 => avx_row_addFun pa pb N i0 ii j0 bs h8 C1)]
  funext p
  simp only [addFun]
  congr 1
  exact rows_to_blockH pa pb N i0 j0 bs hN hj p

theorem kernel_hybrid_p011_spec (pa pb C : Mem) (N i0 j0 k0 bs : Nat) (hN : 0 < N)
    (hj : j0 + bs ≤ N) :
    kernel_hybrid_p011 pa pb C N i0 j0 k0 bs = addFun C (blockH pa pb N i0 j0 bs) := by
  rw [kernel_hybrid_p011]
  rw [loopN_addFun_mem bs _ (fun ii => rowH pa pb ii bs ((i0+ii)*N + j0) 0 bs)
    (fun ii _ C1 => hybrid_p011_row_addFun pa pb N i0 ii j0 bs C1)]
  funext p
  simp only [addFun]
  congr 1
  exact rows_to_blockH pa pb N i0 j0 bs hN hj p

theorem kernel_interleaved_spec (pa pb C : Mem) (N i0 j0 k0 bs : Nat) (hN : 0 < N)
    (hj : j0 + bs ≤ N) :
    kernel_interleaved pa pb C N i0 j0 k0 bs = addFun C (blockH pa pb N i0 j0 bs) := by
  rw [kernel_interleaved]
  rw [loopN_addFun_mem bs _ (fun ii => rowH pa pb ii bs ((i0+ii)*N + j0) 0 bs)
    (fun ii _ C1 => interleaved_row_addFun pa pb N i0 ii j0 bs C1)]
  funext p
  simp only [addFun]
  congr 1
  exact rows_to_blockH pa pb N i0 j0 bs hN hj p

theorem matmul_block_avx512_spec (pa pb C : Mem) (N i0 j0 k0 bs : Nat) (hN : 0 < N)
    (hj : j0 + bs ≤ N) (h8 : 8 ∣ bs) :
    matmul_block_avx512 pa pb C N i0 j0 k0 bs = addFun C (blockH pa pb N i0 j0 bs) :=
  kernel_avx_spec pa pb C N i0 j0 k0 bs hN hj h8

/-! ## Whole-matrix reference and the block iteration engine -/

/-- The exact product entry at flat position `p` (row `p/N`, column `p%N`). -/
def dotAB (A B : Mem) (N p : Nat) : Int :=
  ∑ k in Finset.range N, A ((p / N)*N + k) * B (k*N + p % N)

theorem kernel_scalar_whole_spec (A B C : Mem) (N : Nat) :
    kernel_scalar_whole A B C N
      = fun p => if p < N*N then dotAB A B N p else C p := by
  have hrow : ∀ (i : Nat) (C1 : Mem),
      loopN N (fun j C2 =>
          upd C2 (i*N + j) (accum 0 N (fun k => A (i*N + k) * B (k*N + j)))) C1
        = fun p => if i*N ≤ p ∧ p < i*N + N then dotAB A B N p else C1 p := by
    intro i C1
    rw [loopN_upd_interval N (i*N)
      (fun j => accum 0 N (fun k => A (i*N + k) * B (k*N + j))) C1]
    funext p
    by_cases hp : i*N ≤ p ∧ p < i*N + N
    · obtain ⟨hd, hm⟩ := row_major_div_mod N i (p - i*N) (by omega)
      have hpe : i*N + (p - i*N) = p := by omega
      rw [hpe] at hd hm
      rw [if_pos hp, if_pos hp, accum_spec, zero_add]
      simp only [dotAB, hd, hm]
    · rw [if_neg hp, if_neg hp]
  have houter : ∀ m, loopN m (fun i C1 =>
      loopN N (fun j C2 =>
        upd C2 (i*N + j) (accum 0 N (fun k => A (i*N + k) * B (k*N + j)))) C1) C
      = fun p => if p < m*N then dotAB A B N p else C p := by
    intro m
    induction m with
    | zero =>
      funext p
      simp [loopN]
    | succ n ih =>
      rw [loopN_succ, ih, hrow n]
      funext p
      have hsp : (n+1)*N = n*N + N := by ring
      by_cases h1 : n*N ≤ p ∧ p < n*N + N
      · have h2 : p < (n+1)*N := by omega
        rw [if_pos h1, if_pos h2]
      · rw [if_neg h1]
        by_cases h3 : p < n*N
        · rw [if_pos h3, if_pos (by omega : p < (n+1)*N)]
        · rw [if_neg h3, if_neg (by omega : ¬ p < (n+1)*N)]
  rw [kernel_scalar_whole, houter N]

/-- State threaded by the block iteration engine: the two reused pack
buffers and the accumulator matrix. -/
structure RunState where
  packA : Mem
  packB : Mem
  C : Mem

/-- Innermost (`j0`) loop body of `run_benchmark` (src/unnamed/part_009):
pack the `(k0, j0)` block of B into the reused buffer, then invoke the
kernel on the packed buffers, accumulating into C. -/
def jstep (A B : Mem) (N BS bi bk : Nat) (K : KernelFn) (bj : Nat)
    (s3 : RunState) : RunState :=
  { packA := s3.packA,
    packB := pack_B_block B s3.packB N (bk*BS) (bj*BS) BS,
    C := K s3.packA (pack_B_block B s3.packB N (bk*BS) (bj*BS) BS) s3.C
           N (bi*BS) (bj*BS) (bk*BS) BS }

/-- Middle (`k0`) loop body of `run_benchmark`: pack the `(i0, k0)` block
of A once (hoisted out of the `j0` loop), then run all `j0` blocks. -/
def kstep (A B : Mem) (N BS bi : Nat) (K : KernelFn) (bk : Nat)
    (s2 : RunState) : RunState :=
  loopN (N / BS) (jstep A B N BS bi bk K)
    { packA := pack_A_block A s2.packA N (bi*BS) (bk*BS) BS,
      packB := s2.packB, C := s2.C }

/-- Outer (`i0`) loop body of `run_benchmark`. -/
def istep (A B : Mem) (N BS : Nat) (K : KernelFn) (bi : Nat)
    (s1 : RunState) : RunState :=
  loopN (N / BS) (kstep A B N BS bi K) s1

/-- `run_benchmark` (src/unnamed/part_009): three nested block loops over
`i0, k0, j0` in steps of `BS` (so `N/BS` iterations each, `BS` dividing `N`
being checked at startup), `pack_A_block` hoisted out of the `j0`-loop,
`pack_B_block` executed per block, then the kernel invoked on the packed
buffers. The pack buffers start with arbitrary allocator contents
`pa0, pb0` and are reused across all blocks. -/
def run_benchmark (A B C0 pa0 pb0 : Mem) (N BS : Nat) (kernel : KernelFn) : RunState :=
  loopN (N / BS) (istep A B N BS kernel)
    { packA := pa0, packB := pb0, C := C0 }

/-- The contribution of block `(bi, bk, bj)` to position `p` of C, in
terms of the source matrices. -/
def contrib (A B : Mem) (N BS bi bk bj : Nat) : Nat → Int := fun p =>
  if bi*BS ≤ p / N ∧ p / N < bi*BS + BS ∧ bj*BS ≤ p % N ∧ p % N < bj*BS + BS then
    ∑ kk in Finset.range BS, A ((p / N)*N + (bk*BS + kk)) * B ((bk*BS + kk)*N + p % N)
  else 0

/-- Packing resolves the block delta into source-matrix terms, whatever
the previous contents of the pack buffers. -/
theorem blockH_pack (A B pa0 pb0 : Mem) (N BS bi bk bj : Nat) :
    blockH (pack_A_block A pa0 N (bi*BS) (bk*BS) BS)
           (pack_B_block B pb0 N (bk*BS) (bj*BS) BS) N (bi*BS) (bj*BS) BS
      = contrib A B N BS bi bk bj := by
  funext p
  simp only [blockH, contrib]
  by_cases hc : bi*BS ≤ p / N ∧ p / N < bi*BS + BS ∧ bj*BS ≤ p % N ∧ p % N < bj*BS + BS
  · rw [if_pos hc, if_pos hc]
    simp only [rowdot]
    refine Finset.sum_congr rfl (fun kk hkk => ?_)
    have hkk2 := Finset.mem_range.mp hkk
    rw [pack_A_read A pa0 N (bi*BS) (bk*BS) BS (p / N - bi*BS) kk (by omega) hkk2]
    rw [pack_B_read B pb0 N (bk*BS) (bj*BS) BS kk (p % N - bj*BS) hkk2 (by omega)]
    have e1 : bi*BS + (p / N - bi*BS) = p / N := by omega
    have e2 : bj*BS + (p % N - bj*BS) = p % N := by omega
    rw [e1, e2]
  · rw [if_neg hc, if_neg hc]

theorem sum_ite_chunks0 (m k x : Nat) (v : Int) :
    (∑ b in Finset.range m, if b*k ≤ x ∧ x < b*k + k then v else 0)
      = if x < m*k then v else 0 := by
  have h := sum_ite_chunks m k 0 x v
  simp only [Nat.zero_add, Nat.zero_le, true_and] at h
  exact h

/-- Collapsing the triple block-sum of contributions: inside the matrix it
is the full dot product, outside it is zero. -/
theorem contrib_total (A B : Mem) (N BS : Nat) (hN : 0 < N) (hBS : 0 < BS) (hd : BS ∣ N)
    (p : Nat) :
    (∑ bi in Finset.range (N / BS), ∑ bk in Finset.range (N / BS),
        ∑ bj in Finset.range (N / BS), contrib A B N BS bi bk bj p)
      = if p < N*N then dotAB A B N p else 0 := by
  have hnb : (N / BS) * BS = N := Nat.div_mul_cancel hd
  have hmod : p % N < N := Nat.mod_lt p hN
  have hinner : ∀ bi bk,
      (∑ bj in Finset.range (N / BS), contrib A B N BS bi bk bj p)
        = if bi*BS ≤ p / N ∧ p / N < bi*BS + BS then
            ∑ kk in Finset.range BS,
              A ((p / N)*N + (bk*BS + kk)) * B ((bk*BS + kk)*N + p % N)
          else 0 := by
    intro bi bk
    have hfact : ∀ bj, contrib A B N BS bi bk bj p
        = if bj*BS ≤ p % N ∧ p % N < bj*BS + BS then
            (if bi*BS ≤ p / N ∧ p / N < bi*BS + BS then
              ∑ kk in Finset.range BS,
                A ((p / N)*N + (bk*BS + kk)) * B ((bk*BS + kk)*N + p % N)
             else 0)
          else 0 := by
      intro bj
      simp only [contrib]
      by_cases h1 : bi*BS ≤ p / N ∧ p / N < bi*BS + BS
      · by_cases h2 : bj*BS ≤ p % N ∧ p % N < bj*BS + BS
        · rw [if_pos ⟨h1.1, h1.2, h2.1, h2.2⟩, if_pos h2, if_pos h1]
        · rw [if_neg (by tauto), if_neg h2]
      · by_cases h2 : bj*BS ≤ p % N ∧ p % N < bj*BS + BS
        · rw [if_neg (by tauto), if_pos h2, if_neg h1]
        · rw [if_neg (by tauto), if_neg h2]
    rw [Finset.sum_congr rfl (fun bj _ => hfact bj)]
    rw [sum_ite_chunks0 (N / BS) BS (p % N) _]
    rw [hnb, if_pos hmod]
  have hmid : ∀ bi,
      (∑ bk in Finset.range (N / BS), ∑ bj in Finset.range (N / BS),
          contrib A B N BS bi bk bj p)
        = if bi*BS ≤ p / N ∧ p / N < bi*BS + BS then dotAB A B N p else 0 := by
    intro bi
    rw [Finset.sum_congr rfl (fun bk _ => hinner bi bk)]
    by_cases h1 : bi*BS ≤ p / N ∧ p / N < bi*BS + BS
    · simp only [h1, if_true, and_self, dotAB]
      have hc := sum_range_chunks (N / BS) BS
        (fun k => A ((p / N)*N + k) * B (k*N + p % N))
      rw [hnb] at hc
      exact hc.symm
    · simp only [h1, if_false]
      simp
  rw [Finset.sum_congr rfl (fun bi _ => hmid bi)]
  rw [sum_ite_chunks0 (N / BS) BS (p / N) _]
  rw [hnb]
  have hiff : p / N < N ↔ p < N*N := by
    rw [Nat.div_lt_iff_lt_mul hN]
  by_cases hp : p < N*N
  · rw [if_pos (hiff.mpr hp), if_pos hp]
  · rw [if_neg (fun hc => hp (hiff.mp hc)), if_neg hp]

/-- The interface the iteration engine relies on: for every in-range
column anchor the kernel adds exactly the block delta. -/
def KernelAdds (K : KernelFn) (N BS : Nat) : Prop :=
  ∀ pa pb C i0 j0 k0, j0 + BS ≤ N →
    K pa pb C N i0 j0 k0 BS = addFun C (blockH pa pb N i0 j0 BS)

theorem jstep_packA (A B : Mem) (N BS bi bk : Nat) (K : KernelFn) (bj : Nat)
    (s : RunState) : (jstep A B N BS bi bk K bj s).packA = s.packA := rfl

theorem jstep_C (A B : Mem) (N BS bi bk : Nat) (K : KernelFn) (bj : Nat)
    (s : RunState) :
    (jstep A B N BS bi bk K bj s).C
      = K s.packA (pack_B_block B s.packB N (bk*BS) (bj*BS) BS) s.C
          N (bi*BS) (bj*BS) (bk*BS) BS := rfl

theorem jloop_spec (A B : Mem) (N BS : Nat) (K : KernelFn) (hK : KernelAdds K N BS)
    (hd : BS ∣ N) (bi bk : Nat) (m : Nat) :
    m ≤ N / BS → ∀ s0 : RunState,
      (∃ pa0, s0.packA = pack_A_block A pa0 N (bi*BS) (bk*BS) BS) →
      (loopN m (jstep A B N BS bi bk K) s0).packA = s0.packA
      ∧ (loopN m (jstep A B N BS bi bk K) s0).C
          = addFun s0.C (fun p => ∑ bj in Finset.range m, contrib A B N BS bi bk bj p) := by
  induction m with
  | zero =>
    intro _ s0 _
    refine ⟨rfl, ?_⟩
    funext p
    simp [loopN, addFun]
  | succ n ih =>
    intro hm s0 h0
    obtain ⟨ihA, ihC⟩ := ih (by omega) s0 h0
    obtain ⟨pa0, hpa⟩ := h0
    have hj : n*BS + BS ≤ N := by
      have h2 : (n+1)*BS ≤ (N / BS)*BS := Nat.mul_le_mul_right BS hm
      have h3 : (N / BS)*BS = N := Nat.div_mul_cancel hd
      have h4 : (n+1)*BS = n*BS + BS := by ring
      omega
    rw [loopN_succ]
    refine ⟨?_, ?_⟩
    · rw [jstep_packA]
      exact ihA
    · rw [jstep_C, hK _ _ _ _ _ _ hj, ihA, hpa, blockH_pack, ihC, addFun_addFun]
      funext p
      simp [addFun, Finset.sum_range_succ]

theorem kloop_spec (A B : Mem) (N BS : Nat) (K : KernelFn) (hK : KernelAdds K N BS)
    (hd : BS ∣ N) (bi : Nat) (m : Nat) :
    ∀ s0 : RunState,
      (loopN m (kstep A B N BS bi K) s0).C
        = addFun s0.C (fun p => ∑ bk in Finset.range m,
            ∑ bj in Finset.range (N / BS), contrib A B N BS bi bk bj p) := by
  induction m with
  | zero =>
    intro s0
    funext p
    simp [loopN, addFun]
  | succ n ih =>
    intro s0
    rw [loopN_succ]
    have hstate : (loopN n (kstep A B N BS bi K) s0).C
        = addFun s0.C (fun p => ∑ bk in Finset.range n,
            ∑ bj in Finset.range (N / BS), contrib A B N BS bi bk bj p) := ih s0
    rw [kstep]
    have hinner := jloop_spec A B N BS K hK hd bi n (N / BS) (le_refl _)
      { packA := pack_A_block A (loopN n (kstep A B N BS bi K) s0).packA N (bi*BS) (n*BS) BS,
        packB := (loopN n (kstep A B N BS bi K) s0).packB,
        C := (loopN n (kstep A B N BS bi K) s0).C }
      ⟨(loopN n (kstep A B N BS bi K) s0).packA, rfl⟩
    rw [hinner.2, hstate, addFun_addFun]
    funext p
    simp [addFun, Finset.sum_range_succ]

theorem iloop_spec (A B : Mem) (N BS : Nat) (K : KernelFn) (hK : KernelAdds K N BS)
    (hd : BS ∣ N) (m : Nat) :
    ∀ s0 : RunState,
      (loopN m (istep A B N BS K) s0).C
        = addFun s0.C (fun p => ∑ bi in Finset.range m, ∑ bk in Finset.range (N / BS),
            ∑ bj in Finset.range (N / BS), contrib A B N BS bi bk bj p) := by
  induction m with
  | zero =>
    intro s0
    funext p
    simp [loopN, addFun]
  | succ n ih =>
    intro s0
    rw [loopN_succ, istep, kloop_spec A B N BS K hK hd n (N / BS), ih s0, addFun_addFun]
    funext p
    simp [addFun, Finset.sum_range_succ]

/-- The C matrix computed by the block iteration engine, for any kernel
satisfying the block contract: every position below `N*N` accumulates the
full dot product, every other position is untouched. -/
theorem run_benchmark_C (A B C0 pa0 pb0 : Mem) (N BS : Nat) (K : KernelFn)
    (hK : KernelAdds K N BS) (hN : 0 < N) (hBS : 0 < BS) (hd : BS ∣ N) :
    (run_benchmark A B C0 pa0 pb0 N BS K).C
      = fun p => C0 p + (if p < N*N then dotAB A B N p else 0) := by
  rw [run_benchmark, iloop_spec A B N BS K hK hd (N / BS)]
  funext p
  rw [addFun_apply, contrib_total A B N BS hN hBS hd p]

/-! ## Mixing policies and the part_004 driver loop -/

/-- Truncation to 32 bits, as by C unsigned int arithmetic. -/
def u32 (x : Nat) : Nat := x % 2^32

/-- `xorshift32` (src/unnamed/part_004): `x ^= x << 13; x ^= x >> 17;
x ^= x << 5;` on a 32-bit unsigned state. -/
def xorshift32 (x : Nat) : Nat :=
  let a := u32 (Nat.xor x (u32 (x <<< 13)))
  let b := u32 (Nat.xor a (a >>> 17))
  u32 (Nat.xor b (u32 (b <<< 5)))

/-- Mutable per-run mixing state of part_004's driver: the xorshift32
state and the burst state machine (`in_avx`, `avx_rem`, `scalar_rem`). -/
structure PolState where
  rng : Nat
  in_avx : Bool
  avx_rem : Int
  scalar_rem : Int

/-- The per-block kernel decision of part_004's driver (the strcmp chain
inside the block loop): returns `use_avx` for linear block index `t`
together with the updated policy state. `AB`/`SB` are AVX_BURST and
SCALAR_BURST. An unknown mode falls through to the `mixed` behavior
("default to mixed" in the source). -/
def policy_step (mode : String) (AB SB : Int) (t : Nat) (st : PolState) : Bool × PolState :=
  if mode = "avx" then (true, st)
  else if mode = "scalar" then (false, st)
  else if mode = "mixed" then
    (xorshift32 st.rng % 2 == 1, { st with rng := xorshift32 st.rng })
  else if mode = "mixed_burst" then
    if st.in_avx then
      if st.avx_rem - 1 ≤ 0 then
        (true, { st with in_avx := false, avx_rem := st.avx_rem - 1, scalar_rem := SB })
      else (true, { st with avx_rem := st.avx_rem - 1 })
    else
      if st.scalar_rem - 1 ≤ 0 then
        (false, { st with in_avx := true, scalar_rem := st.scalar_rem - 1, avx_rem := AB })
      else (false, { st with scalar_rem := st.scalar_rem - 1 })
  else if mode = "periodic" then
    (((t / 4) % 2 == 0 : Bool), st)
  else
    (xorshift32 st.rng % 2 == 1, { st with rng := xorshift32 st.rng })

/-- Policy state before block `t` (blocks in linear `(i0, k0, j0)` order). -/
def polStateAt (mode : String) (AB SB : Int) (st0 : PolState) : Nat → PolState
  | 0 => st0
  | t+1 => (policy_step mode AB SB t (polStateAt mode AB SB st0 t)).2

/-- The kernel selection made for block `t`: `true` = vectorized. -/
def selAt (mode : String) (AB SB : Int) (st0 : PolState) (t : Nat) : Bool :=
  (policy_step mode AB SB t (polStateAt mode AB SB st0 t)).1

/-- `rng_state = seed ? seed : (unsigned)time(NULL)` (src/unnamed/part_004):
the process start time enters the state only when seed = 0. -/
def initial_rng (seed timeNow : Nat) : Nat :=
  if seed ≠ 0 then u32 seed else u32 timeNow

/-- Initial mixing state of part_004's driver:
`bool in_avx = true; int avx_rem = AVX_BURST; int scalar_rem = SCALAR_BURST`. -/
def initPol (AB SB : Int) (seed timeNow : Nat) : PolState :=
  { rng := initial_rng seed timeNow, in_avx := true, avx_rem := AB, scalar_rem := SB }

/-- State threaded by part_004's inline block loop: mixing state plus the
pack buffers and C. -/
structure MixState where
  pol : PolState
  packA : Mem
  packB : Mem
  C : Mem

/-- Innermost (`j0`) loop body of part_004's driver: pack B, decide the
kernel for this block (`block_index = (i0/BS)*(N/BS)*(N/BS) +
(k0/BS)*(N/BS) + (j0/BS)`), then run `matmul_block_avx512` or
`matmul_block_scalar` on the packed buffers. -/
def mjstep (A B : Mem) (N BS bi bk : Nat) (mode : String) (AB SB : Int) (bj : Nat)
    (s3 : MixState) : MixState :=
  { pol := (policy_step mode AB SB (bi*(N/BS)*(N/BS) + bk*(N/BS) + bj) s3.pol).2,
    packA := s3.packA,
    packB := pack_B_block B s3.packB N (bk*BS) (bj*BS) BS,
    C := (if (policy_step mode AB SB (bi*(N/BS)*(N/BS) + bk*(N/BS) + bj) s3.pol).1
          then matmul_block_avx512 else matmul_block_scalar)
           s3.packA (pack_B_block B s3.packB N (bk*BS) (bj*BS) BS) s3.C
           N (bi*BS) (bj*BS) (bk*BS) BS }

/-- Middle (`k0`) loop body of part_004's driver: pack A once, reused
across all `j0`. -/
def mkstep (A B : Mem) (N BS bi : Nat) (mode : String) (AB SB : Int) (bk : Nat)
    (s2 : MixState) : MixState :=
  loopN (N / BS) (mjstep A B N BS bi bk mode AB SB)
    { pol := s2.pol, packA := pack_A_block A s2.packA N (bi*BS) (bk*BS) BS,
      packB := s2.packB, C := s2.C }

/-- Outer (`i0`) loop body of part_004's driver. -/
def mistep (A B : Mem) (N BS : Nat) (mode : String) (AB SB : Int) (bi : Nat)
    (s1 : MixState) : MixState :=
  loopN (N / BS) (mkstep A B N BS bi mode AB SB) s1

/-- The inline block loop of part_004's first driver `main`: three nested
block loops in `(i0, k0, j0)` order, A packed per `(i0, k0)`, B packed per
block, per-block kernel selection by the mixing policy, accumulation into
C. -/
def part004_run (A B C0 pa0 pb0 : Mem) (N BS : Nat) (mode : String) (AB SB : Int)
    (st0 : PolState) : MixState :=
  loopN (N / BS) (mistep A B N BS mode AB SB)
    { pol := st0, packA := pa0, packB := pb0, C := C0 }

/-- The checksum loop `for (i = 0; i < N*N; ++i) s += C[i]`, `s` from 0.0. -/
def checksum (C : Mem) (N : Nat) : Int := accum 0 (N*N) (fun i => C i)

/-- The zero-initialized C (`memset(C, 0, ...)`). -/
def zeroMem : Mem := fun _ => 0

/-- Whichever branch the policy picks, the invoked kernel adds the block
delta (vectorized requires `8 ∣ BS`, as the spec demands for mixed modes). -/
theorem ite_kernel_adds (N BS : Nat) (hN : 0 < N) (h8 : 8 ∣ BS) (b : Bool) :
    KernelAdds (if b then matmul_block_avx512 else matmul_block_scalar) N BS := by
  cases b
  · intro pa pb C i0 j0 k0 hj
    exact matmul_block_scalar_spec pa pb C N i0 j0 k0 BS hN hj
  · intro pa pb C i0 j0 k0 hj
    exact matmul_block_avx512_spec pa pb C N i0 j0 k0 BS hN hj h8

theorem mjstep_packA (A B : Mem) (N BS bi bk : Nat) (mode : String) (AB SB : Int)
    (bj : Nat) (s : MixState) :
    (mjstep A B N BS bi bk mode AB SB bj s).packA = s.packA := rfl

theorem mjstep_C (A B : Mem) (N BS bi bk : Nat) (mode : String) (AB SB : Int)
    (bj : Nat) (s : MixState) :
    (mjstep A B N BS bi bk mode AB SB bj s).C
      = (if (policy_step mode AB SB (bi*(N/BS)*(N/BS) + bk*(N/BS) + bj) s.pol).1
         then matmul_block_avx512 else matmul_block_scalar)
          s.packA (pack_B_block B s.packB N (bk*BS) (bj*BS) BS) s.C
          N (bi*BS) (bj*BS) (bk*BS) BS := rfl

theorem mjloop_spec (A B : Mem) (N BS : Nat) (mode : String) (AB SB : Int)
    (hN : 0 < N) (h8 : 8 ∣ BS) (hd : BS ∣ N) (bi bk : Nat) (m : Nat) :
    m ≤ N / BS → ∀ s0 : MixState,
      (∃ pa0, s0.packA = pack_A_block A pa0 N (bi*BS) (bk*BS) BS) →
      (loopN m (mjstep A B N BS bi bk mode AB SB) s0).packA = s0.packA
      ∧ (loopN m (mjstep A B N BS bi bk mode AB SB) s0).C
          = addFun s0.C (fun p => ∑ bj in Finset.range m, contrib A B N BS bi bk bj p) := by
  induction m with
  | zero =>
    intro _ s0 _
    refine ⟨rfl, ?_⟩
    funext p
    simp [loopN, addFun]
  | succ n ih =>
    intro hm s0 h0
    obtain ⟨ihA, ihC⟩ := ih (by omega) s0 h0
    obtain ⟨pa0, hpa⟩ := h0
    have hj : n*BS + BS ≤ N := by
      have h2 : (n+1)*BS ≤ (N / BS)*BS := Nat.mul_le_mul_right BS hm
      have h3 : (N / BS)*BS = N := Nat.div_mul_cancel hd
      have h4 : (n+1)*BS = n*BS + BS := by ring
      omega
    rw [loopN_succ]
    refine ⟨?_, ?_⟩
    · rw [mjstep_packA]
      exact ihA
    · rw [mjstep_C, ite_kernel_adds N BS hN h8 _ _ _ _ _ _ _ hj, ihA, hpa, blockH_pack,
        ihC, addFun_addFun]
      funext p
      simp [addFun, Finset.sum_range_succ]

theorem mkloop_spec (A B : Mem) (N BS : Nat) (mode : String) (AB SB : Int)
    (hN : 0 < N) (h8 : 8 ∣ BS) (hd : BS ∣ N) (bi : Nat) (m : Nat) :
    ∀ s0 : MixState,
      (loopN m (mkstep A B N BS bi mode AB SB) s0).C
        = addFun s0.C (fun p => ∑ bk in Finset.range m,
            ∑ bj in Finset.range (N / BS), contrib A B N BS bi bk bj p) := by
  induction m with
  | zero =>
    intro s0
    funext p
    simp [loopN, addFun]
  | succ n ih =>
    intro s0
    rw [loopN_succ, mkstep]
    have hinner := mjloop_spec A B N BS mode AB SB hN h8 hd bi n (N / BS) (le_refl _)
      { pol := (loopN n (mkstep A B N BS bi mode AB SB) s0).pol,
        packA := pack_A_block A (loopN n (mkstep A B N BS bi mode AB SB) s0).packA
          N (bi*BS) (n*BS) BS,
        packB := (loopN n (mkstep A B N BS bi mode AB SB) s0).packB,
        C := (loopN n (mkstep A B N BS bi mode AB SB) s0).C }
      ⟨(loopN n (mkstep A B N BS bi mode AB SB) s0).packA, rfl⟩
    rw [hinner.2, ih s0, addFun_addFun]
    funext p
    simp [addFun, Finset.sum_range_succ]

theorem miloop_spec (A B : Mem) (N BS : Nat) (mode : String) (AB SB : Int)
    (hN : 0 < N) (h8 : 8 ∣ BS) (hd : BS ∣ N) (m : Nat) :
    ∀ s0 : MixState,
      (loopN m (mistep A B N BS mode AB SB) s0).C
        = addFun s0.C (fun p => ∑ bi in Finset.range m, ∑ bk in Finset.range (N / BS),
            ∑ bj in Finset.range (N / BS), contrib A B N BS bi bk bj p) := by
  induction m with
  | zero =>
    intro s0
    funext p
    simp [loopN, addFun]
  | succ n ih =>
    intro s0
    rw [loopN_succ, mistep, mkloop_spec A B N BS mode AB SB hN h8 hd n (N / BS),
      ih s0, addFun_addFun]
    funext p
    simp [addFun, Finset.sum_range_succ]

/-- The C matrix computed by part_004's driver loop is the exact product
accumulation, whatever mixing policy, burst parameters and initial policy
state drove the per-block choices. -/
theorem part004_C (A B C0 pa0 pb0 : Mem) (N BS : Nat) (mode : String) (AB SB : Int)
    (st0 : PolState) (hN : 0 < N) (hBS : 0 < BS) (hd : BS ∣ N) (h8 : 8 ∣ BS) :
    (part004_run A B C0 pa0 pb0 N BS mode AB SB st0).C
      = fun p => C0 p + (if p < N*N then dotAB A B N p else 0) := by
  rw [part004_run, miloop_spec A B N BS mode AB SB hN h8 hd (N / BS)]
  funext p
  rw [addFun_apply, contrib_total A B N BS hN hBS hd p]

/-! ## Strategy registry and driver control flow -/

/-- Modelled from the spec: `kernel_blas_whole` (src/unnamed/part_005)
forwards the whole N-by-N product to the external `dgemm_` with
`beta = 0.0` ("Overwrite C with the result"); dgemm is an external
collaborator, modelled as the exact overwrite with the product. -/
def kernel_blas_whole (A B C : Mem) (N : Nat) : Mem :=
  fun p => if p < N*N then dotAB A B N p else C p

/-- `get_kernel_for_mode` (src/unnamed/part_007): the name-to-kernel map
holds exactly avx, scalar, hybrid and interleaved; `find` on any other
name returns the null kernel pointer (`none`). -/
def get_kernel_for_mode (mode : String) : Option KernelFn :=
  if mode = "avx" then some kernel_avx
  else if mode = "scalar" then some kernel_scalar
  else if mode = "hybrid" then some kernel_hybrid
  else if mode = "interleaved" then some kernel_interleaved
  else none

/-- `get_kernel_for_mode_whole` (src/unnamed/part_008): the whole-matrix
map holds exactly scalar_whole and blas_whole. -/
def get_kernel_for_mode_whole (mode : String) : Option (Mem → Mem → Mem → Nat → Mem) :=
  if mode = "scalar_whole" then some kernel_scalar_whole
  else if mode = "blas_whole" then some kernel_blas_whole
  else none

/-- The block modes advertised by the usage text of part_004's second
driver: "Block modes: avx, scalar, hybrid, interleaved, blas". -/
def usage_block_modes : List String :=
  ["avx", "scalar", "hybrid", "interleaved", "blas"]

/-- Observable events of a driver run, in program order. -/
inductive Event where
  | allocA
  | allocB
  | allocC
  | allocPackA
  | allocPackB
  | errReport
  | kernelCall
  | summaryLine
deriving DecidableEq

/-- The allocation/report/kernel events of `run_benchmark`
(src/unnamed/part_009): both pack buffers are allocated; if either is
null, `perror` is called and the function returns — it does not exit, so
the caller continues; otherwise the block loops invoke the kernel. -/
def run_benchmark_events (okPA okPB : Bool) : List Event :=
  [Event.allocPackA, Event.allocPackB]
    ++ (if okPA && okPB then [Event.kernelCall] else [Event.errReport])

/-- Event trace and exit status of the main driver (src/src/main.cpp):
the N/BS checks and the mode lookup happen before any allocation; matrix
allocation failure reports and exits 1; then `run_benchmark` runs and the
SUMMARY line is printed and the process exits 0 regardless of what
`run_benchmark` did. Allocation outcomes are the `ok` parameters. -/
def main1_run (N BS : Nat) (mode : String) (okA okB okC okPA okPB : Bool) :
    List Event × Nat :=
  if N % 8 ≠ 0 ∨ BS = 0 ∨ N % BS ≠ 0 then ([Event.errReport], 1)
  else if (get_kernel_for_mode mode).isNone then ([Event.errReport], 1)
  else if ¬ (okA = true ∧ okB = true ∧ okC = true) then
    ([Event.allocA, Event.allocB, Event.allocC, Event.errReport], 1)
  else
    ([Event.allocA, Event.allocB, Event.allocC] ++ run_benchmark_events okPA okPB
       ++ [Event.summaryLine], 0)

/-- Event trace and exit status of part_004's second driver (the modular
main): only N%8 is checked before allocation; A, B, C are allocated and
filled, then whole-matrix dispatch, then block dispatch — the BS check
runs only inside the block branch, after allocation — and the unknown-mode
report also comes after allocation. -/
def main2_run (N BS : Nat) (mode : String) (okA okB okC okPA okPB : Bool) :
    List Event × Nat :=
  if N % 8 ≠ 0 then ([Event.errReport], 1)
  else if ¬ (okA = true ∧ okB = true ∧ okC = true) then
    ([Event.allocA, Event.allocB, Event.allocC, Event.errReport], 1)
  else if (get_kernel_for_mode_whole mode).isSome then
    ([Event.allocA, Event.allocB, Event.allocC, Event.kernelCall, Event.summaryLine], 0)
  else if (get_kernel_for_mode mode).isSome then
    if BS = 0 ∨ N % BS ≠ 0 then
      ([Event.allocA, Event.allocB, Event.allocC, Event.errReport], 1)
    else
      ([Event.allocA, Event.allocB, Event.allocC] ++ run_benchmark_events okPA okPB
         ++ [Event.summaryLine], 0)
  else
    ([Event.allocA, Event.allocB, Event.allocC, Event.errReport], 1)

/-! ## The burst policy pattern -/

theorem policy_step_burst (AB SB : Int) (t : Nat) (st : PolState) :
    policy_step "mixed_burst" AB SB t st
      = if st.in_avx then
          (if st.avx_rem - 1 ≤ 0 then
            (true, { st with in_avx := false, avx_rem := st.avx_rem - 1, scalar_rem := SB })
          else (true, { st with avx_rem := st.avx_rem - 1 }))
        else
          (if st.scalar_rem - 1 ≤ 0 then
            (false, { st with in_avx := true, scalar_rem := st.scalar_rem - 1, avx_rem := AB })
          else (false, { st with scalar_rem := st.scalar_rem - 1 })) := rfl

/-- Full description of the burst state machine with AVX_BURST = 4 and
SCALAR_BURST = 2: period 6, in the vector phase exactly while
`t % 6 < 4`. -/
theorem burst_state (r0 t : Nat) :
    polStateAt "mixed_burst" 4 2 ⟨r0, true, 4, 2⟩ t
      = if t % 6 < 4 then
          ⟨r0, true, 4 - (↑(t % 6) : Int), if t < 6 then 2 else 0⟩
        else ⟨r0, false, 0, 2 - ((↑(t % 6) : Int) - 4)⟩ := by
  induction t with
  | zero =>
    norm_num [polStateAt]
  | succ n ih =>
    have h6 : n % 6 < 6 := Nat.mod_lt _ (by norm_num)
    simp only [polStateAt]
    rw [ih, policy_step_burst]
    clear ih
    by_cases hc : n % 6 < 4
    · rw [if_pos hc]
      dsimp only
      split_ifs <;> dsimp only <;>
        (try simp only [PolState.mk.injEq, eq_self_iff_true, true_and, and_true]) <;>
        first
        | trivial
        | omega
    · rw [if_neg hc]
      dsimp only
      split_ifs <;> dsimp only <;>
        (try simp only [PolState.mk.injEq, eq_self_iff_true, true_and, and_true]) <;>
        first
        | trivial
        | omega

/-! ## Numeric bounds (exact-integer model of IEEE doubles) -/

/-- Modelled from IEEE-754 binary64: an integer value is exactly
representable as a double precisely when its magnitude is at most 2^53;
integer additions and multiplications whose inputs and result lie in this
range are computed exactly by double arithmetic. -/
def exactDouble (z : Int) : Prop := z.natAbs ≤ 2^53

/-- Prefix of the dot product for output position `p`: the value of every
intermediate per-element accumulation state in every strategy. -/
def dotPrefix (A B : Mem) (N p m : Nat) : Int :=
  ∑ k in Finset.range m, A ((p / N)*N + k) * B (k*N + p % N)

theorem dotPrefix_full (A B : Mem) (N p : Nat) :
    dotPrefix A B N p N = dotAB A B N p := rfl

theorem fillv_bounds (i : Nat) : 1 ≤ fillv i ∧ fillv i ≤ 100 := by
  have h := Nat.mod_lt (i*33 + 7) (show 0 < 100 by norm_num)
  rw [fillv]
  omega

theorem checksum_congr (X Y : Mem) (N : Nat) (h : ∀ p, p < N*N → X p = Y p) :
    checksum X N = checksum Y N := by
  rw [checksum, checksum, accum_spec, accum_spec]
  congr 1
  exact Finset.sum_congr rfl (fun i hi => h i (Finset.mem_range.mp hi))

theorem index_row_lt (N p k : Nat) (hp : p < N*N) (hk : k < N) :
    (p / N)*N + k < N*N := by
  have hN : 0 < N := by
    rcases Nat.eq_zero_or_pos N with h | h
    · subst h; omega
    · exact h
  have h1 : p / N < N := (Nat.div_lt_iff_lt_mul hN).mpr hp
  have h2 : (p / N + 1)*N ≤ N*N := Nat.mul_le_mul_right N (Nat.succ_le_of_lt h1)
  have h3 : (p / N + 1)*N = (p / N)*N + N := by ring
  omega

theorem index_col_lt (N p k : Nat) (hp : p < N*N) (hk : k < N) :
    k*N + p % N < N*N := by
  have hN : 0 < N := by
    rcases Nat.eq_zero_or_pos N with h | h
    · subst h; omega
    · exact h
  have h1 : p % N < N := Nat.mod_lt p hN
  have h2 : (k + 1)*N ≤ N*N := Nat.mul_le_mul_right N (Nat.succ_le_of_lt hk)
  have h3 : (k + 1)*N = k*N + N := by ring
  omega

theorem dotPrefix_bounds (A0 B0 : Mem) (N p m : Nat) (hp : p < N*N) (hm : m ≤ N) :
    0 ≤ dotPrefix (matrix_fill A0 N) (matrix_fill B0 N) N p m
    ∧ dotPrefix (matrix_fill A0 N) (matrix_fill B0 N) N p m ≤ (10^4 : Int) * m := by
  have hterm : ∀ k, k < m →
      1 ≤ matrix_fill A0 N ((p / N)*N + k) * matrix_fill B0 N (k*N + p % N)
      ∧ matrix_fill A0 N ((p / N)*N + k) * matrix_fill B0 N (k*N + p % N)
          ≤ (10^4 : Int) := by
    intro k hk
    have hkN : k < N := lt_of_lt_of_le hk hm
    rw [matrix_fill_read A0 N _ (index_row_lt N p k hp hkN),
        matrix_fill_read B0 N _ (index_col_lt N p k hp hkN)]
    obtain ⟨ha1, ha2⟩ := fillv_bounds ((p / N)*N + k)
    obtain ⟨hb1, hb2⟩ := fillv_bounds (k*N + p % N)
    constructor
    · nlinarith
    · nlinarith
  constructor
  · rw [dotPrefix]
    refine Finset.sum_nonneg (fun k hk => ?_)
    have := (hterm k (Finset.mem_range.mp hk)).1
    omega
  · rw [dotPrefix]
    calc (∑ k in Finset.range m,
            matrix_fill A0 N ((p / N)*N + k) * matrix_fill B0 N (k*N + p % N))
        ≤ ∑ _k in Finset.range m, (10^4 : Int) :=
          Finset.sum_le_sum (fun k hk => (hterm k (Finset.mem_range.mp hk)).2)
      _ = (10^4 : Int) * m := by
          rw [Finset.sum_const, Finset.card_range, nsmul_eq_mul]
          ring

theorem dotAB_bounds (A0 B0 : Mem) (N p : Nat) (hp : p < N*N) :
    0 ≤ dotAB (matrix_fill A0 N) (matrix_fill B0 N) N p
    ∧ dotAB (matrix_fill A0 N) (matrix_fill B0 N) N p ≤ (10^4 : Int) * N := by
  have h := dotPrefix_bounds A0 B0 N p N hp (le_refl N)
  rw [dotPrefix_full] at h
  exact h

theorem exactDouble_of_bounds (z : Int) (b : Nat) (h0 : 0 ≤ z) (h1 : z ≤ (b : Int))
    (hb : b ≤ 2^53) : exactDouble z := by
  rw [exactDouble]
  have hz : (z.natAbs : Int) = z := Int.natAbs_of_nonneg h0
  have h2 : (z.natAbs : Int) ≤ ((2^53 : Nat) : Int) := by
    rw [hz]
    calc z ≤ (b : Int) := h1
      _ ≤ ((2^53 : Nat) : Int) := by exact_mod_cast hb
  exact_mod_cast h2

/-! ## Shared wrappers for the claims -/

theorem family_kernel_adds (N BS : Nat) (K : KernelFn) (hN : 0 < N) (h8 : 8 ∣ BS)
    (hker : K = matmul_block_scalar ∨ K = kernel_avx ∨ K = kernel_hybrid_p011
      ∨ K = kernel_interleaved) : KernelAdds K N BS := by
  rcases hker with h | h | h | h
  · subst h
    intro pa pb C i0 j0 k0 hj
    exact matmul_block_scalar_spec pa pb C N i0 j0 k0 BS hN hj
  · subst h
    intro pa pb C i0 j0 k0 hj
    exact kernel_avx_spec pa pb C N i0 j0 k0 BS hN hj h8
  · subst h
    intro pa pb C i0 j0 k0 hj
    exact kernel_hybrid_p011_spec pa pb C N i0 j0 k0 BS hN hj
  · subst h
    intro pa pb C i0 j0 k0 hj
    exact kernel_interleaved_spec pa pb C N i0 j0 k0 BS hN hj

theorem addFun_blockH_apply (pa pb C : Mem) (N i0 j0 bs p : Nat) :
    addFun C (blockH pa pb N i0 j0 bs) p
      = if i0 ≤ p / N ∧ p / N < i0 + bs ∧ j0 ≤ p % N ∧ p % N < j0 + bs
        then C p + ∑ kk in Finset.range bs,
          pa ((p / N - i0)*bs + kk) * pb (kk*bs + (p % N - j0))
        else C p := by
  rw [addFun_apply]
  simp only [blockH, rowdot]
  by_cases hc : i0 ≤ p / N ∧ p / N < i0 + bs ∧ j0 ≤ p % N ∧ p % N < j0 + bs
  · rw [if_pos hc, if_pos hc]
  · rw [if_neg hc, if_neg hc, add_zero]

theorem engine_vs_whole (A B pa0 pb0 C0w : Mem) (N BS : Nat) (K : KernelFn)
    (hK : KernelAdds K N BS) (hN : 0 < N) (hBS : 0 < BS) (hdvd : BS ∣ N)
    (p : Nat) (hp : p < N*N) :
    (run_benchmark A B zeroMem pa0 pb0 N BS K).C p
      = kernel_scalar_whole A B C0w N p := by
  rw [run_benchmark_C A B zeroMem pa0 pb0 N BS K hK hN hBS hdvd,
      kernel_scalar_whole_spec A B C0w N]
  simp [zeroMem, hp]

theorem part004_vs_whole (A B pa0 pb0 C0w : Mem) (N BS : Nat) (mode : String)
    (AB SB : Int) (st0 : PolState)
    (hN : 0 < N) (hBS : 0 < BS) (hdvd : BS ∣ N) (h8 : 8 ∣ BS)
    (p : Nat) (hp : p < N*N) :
    (part004_run A B zeroMem pa0 pb0 N BS mode AB SB st0).C p
      = kernel_scalar_whole A B C0w N p := by
  rw [part004_C A B zeroMem pa0 pb0 N BS mode AB SB st0 hN hBS hdvd h8,
      kernel_scalar_whole_spec A B C0w N]
  simp [zeroMem, hp]

/-! ## The claims -/

/-- C5: the deterministic fill sets every element at flattened index `p`
of an N-by-N matrix to `((p*33 + 7) mod 100) + 1`, a pure function of the
index only; two fills of any two buffers (any two runs, any seed — the
fill takes no seed) agree on every element, so A and B are bit-identical
across runs with the same N. -/
theorem claim_C5_fill_deterministic (M M2 : Mem) (N p : Nat) (hp : p < N*N) :
    matrix_fill M N p = (((p*33 + 7) % 100 : Nat) : Int) + 1
    ∧ matrix_fill M N p = matrix_fill M2 N p := by
  refine ⟨matrix_fill_read M N p hp, ?_⟩
  rw [matrix_fill_read M N p hp, matrix_fill_read M2 N p hp]

theorem claim_C5_fill_deterministic_witness :
    3 < 2*2
    ∧ (matrix_fill (fun _ => 42) 2 3 = (((3*33 + 7) % 100 : Nat) : Int) + 1
       ∧ matrix_fill (fun _ => 42) 2 3 = matrix_fill (fun _ => 7) 2 3) :=
  ⟨by decide, claim_C5_fill_deterministic (fun _ => 42) (fun _ => 7) 2 3 (by decide)⟩

/-- C7: under the burst mixing policy with avx_burst = 4 and
scalar_burst = 2 (initial state in_avx with both counters full), the block
at linear index `t` in `(i-block, k-block, j-block)` order is executed
with the vectorized kernel iff `t mod 6 < 4`: four vectorized blocks, two
scalar blocks, repeating — for every `t`, hence over any sequence of at
least 12 blocks. -/
theorem claim_C7_burst_pattern (r0 t : Nat) :
    selAt "mixed_burst" 4 2 ⟨r0, true, 4, 2⟩ t = true ↔ t % 6 < 4 := by
  have hfst : ∀ st : PolState,
      (policy_step "mixed_burst" 4 2 t st).1 = st.in_avx := by
    intro st
    rw [policy_step_burst]
    split_ifs with h1 h2 h2 <;> simp_all
  rw [selAt, hfst, burst_state]
  by_cases hc : t % 6 < 4
  · rw [if_pos hc]
    simp [hc]
  · rw [if_neg hc]
    simp [hc]

/-- C10: the block-kernel registry resolves exactly the names avx, scalar,
hybrid and interleaved and returns the null kernel for every other name —
in particular for "blas", although the delegated block kernel
`kernel_blas` exists in the code base and the usage text advertises a
"blas" block mode — so running the modular driver with mode "blas" (which
matches no whole-matrix mode either) allocates, finds no kernel, reports
the error and exits with status 1. -/
theorem claim_C10_blas_not_registered :
    (∀ mode : String, (get_kernel_for_mode mode).isSome = true
        ↔ (mode = "avx" ∨ mode = "scalar" ∨ mode = "hybrid" ∨ mode = "interleaved"))
    ∧ get_kernel_for_mode "blas" = none
    ∧ get_kernel_for_mode_whole "blas" = none
    ∧ "blas" ∈ usage_block_modes
    ∧ main2_run 8 8 "blas" true true true true true
        = ([Event.allocA, Event.allocB, Event.allocC, Event.errReport], 1) := by
  refine ⟨?_, rfl, rfl, by decide, by decide⟩
  intro mode
  rw [get_kernel_for_mode]
  split_ifs with h1 h2 h3 h4
  · simp [h1]
  · simp [h2]
  · simp [h3]
  · simp [h4]
  · simp [h1, h2, h3, h4]

/-- C3 (failing input): with N = 8, BS = 8, mode "scalar", matrix
allocations succeeding but the packA allocation failing inside
`run_benchmark`, the failure is reported (`perror`) but `run_benchmark`
merely returns: no kernel is invoked, yet the driver continues, prints the
SUMMARY line (with the checksum of the untouched zero C) and exits with
status 0 — not a nonzero abort. -/
theorem claim_C3_pack_alloc_no_abort :
    main1_run 8 8 "scalar" true true true false true
      = ([Event.allocA, Event.allocB, Event.allocC, Event.allocPackA, Event.allocPackB,
          Event.errReport, Event.summaryLine], 0)
    ∧ Event.kernelCall ∉ (main1_run 8 8 "scalar" true true true false true).1
    ∧ (main1_run 8 8 "scalar" true true true false true).2 = 0
    ∧ Event.summaryLine ∈ (main1_run 8 8 "scalar" true true true false true).1 := by
  refine ⟨by decide, by decide, by decide, by decide⟩

set_option maxRecDepth 100000 in
/-- C2 (failing input): the hybrid kernel of src/src/kernel_hybrid.cpp
bounds-checks only its scalar columns; with bs = 16 (remainder 6 modulo
the split unit 10) its unconditional vector group at j_off = 10 covers
columns 10..17 and writes C at column offset 16 — outside the bs-column
range of the block (flat index 16 = row 0, column 16, with N = 32,
i0 = j0 = k0 = 0, all-ones pack buffers, zero C). The guarded variant of
the same kernel (src/unnamed/part_011) leaves that cell untouched and
computes the remainder columns with its safe scalar cleanup path. -/
theorem claim_C2_hybrid_vector_oob :
    16 % 10 ≠ 0
    ∧ kernel_hybrid (fun _ => 1) (fun _ => 1) zeroMem 32 0 0 0 16 16 = 16
    ∧ zeroMem 16 = 0
    ∧ kernel_hybrid_p011 (fun _ => 1) (fun _ => 1) zeroMem 32 0 0 0 16 16 = 0 := by
  refine ⟨by decide, by decide, rfl, by decide⟩

/-- C4 (counterexample): part_004's modular driver with N = 8, BS = 3
(not a divisor of 8) and the valid block mode "avx" allocates all three
matrices before detecting the configuration error: the error exit (status
1) comes after the allocation events, refuting "detected before any
matrix allocation". -/
theorem claim_C4_counterexample :
    (main2_run 8 3 "avx" true true true true true).2 = 1
    ∧ Event.allocA ∈ (main2_run 8 3 "avx" true true true true true).1
    ∧ (main2_run 8 3 "avx" true true true true true).1
        = [Event.allocA, Event.allocB, Event.allocC, Event.errReport] := by
  refine ⟨by decide, by decide, by decide⟩

/-- C4 (amended): configuration errors — N not a multiple of 8, BS not a
positive divisor of N for a block mode, unknown mode name — are always
reported and make the process exit with status 1, never silently
corrected, and no summary line is produced. In the primary driver
(src/src/main.cpp) every one of these checks runs before any matrix
allocation, so the error trace contains no allocation at all; in the
alternate modular driver (src/unnamed/part_004) only the N % 8 check
precedes allocation — a bad BS for a block mode and an unknown mode are
detected only after A, B and C have been allocated. -/
theorem claim_C4_config_errors (N BS : Nat) (mode : String) (okPA okPB : Bool)
    (h : N % 8 ≠ 0 ∨ ((get_kernel_for_mode_whole mode).isNone = true
          ∧ (BS = 0 ∨ N % BS ≠ 0 ∨ (get_kernel_for_mode mode).isNone = true))) :
    main1_run N BS mode true true true okPA okPB = ([Event.errReport], 1)
    ∧ (main2_run N BS mode true true true okPA okPB).2 = 1
    ∧ Event.errReport ∈ (main2_run N BS mode true true true okPA okPB).1
    ∧ Event.summaryLine ∉ (main2_run N BS mode true true true okPA okPB).1 := by
  have hm2 : main2_run N BS mode true true true okPA okPB = ([Event.errReport], 1)
      ∨ main2_run N BS mode true true true okPA okPB
          = ([Event.allocA, Event.allocB, Event.allocC, Event.errReport], 1) := by
    by_cases h2 : N % 8 ≠ 0
    · left
      rw [main2_run, if_pos h2]
    · right
      rcases h with h | ⟨hw, hb⟩
      · exact absurd h h2
      · rw [main2_run, if_neg h2, if_neg (by simp)]
        have hwn : get_kernel_for_mode_whole mode = none :=
          Option.isNone_iff_eq_none.mp hw
        have hws : ¬ ((get_kernel_for_mode_whole mode).isSome = true) := by
          rw [hwn]
          simp
        rw [if_neg hws]
        rcases hb with hb | hb | hb
        · by_cases hbs : (get_kernel_for_mode mode).isSome = true
          · rw [if_pos hbs, if_pos (Or.inl hb)]
          · rw [if_neg hbs]
        · by_cases hbs : (get_kernel_for_mode mode).isSome = true
          · rw [if_pos hbs, if_pos (Or.inr hb)]
          · rw [if_neg hbs]
        · have hbn : get_kernel_for_mode mode = none := Option.isNone_iff_eq_none.mp hb
          have hbs : ¬ ((get_kernel_for_mode mode).isSome = true) := by
            rw [hbn]
            simp
          rw [if_neg hbs]
  refine ⟨?_, ?_, ?_, ?_⟩
  · by_cases h1 : N % 8 ≠ 0 ∨ BS = 0 ∨ N % BS ≠ 0
    · rw [main1_run, if_pos h1]
    · have hbn : (get_kernel_for_mode mode).isNone = true := by
        rcases h with h | ⟨hw, hb⟩
        · exact absurd (Or.inl h) h1
        · rcases hb with hb | hb | hb
          · exact absurd (Or.inr (Or.inl hb)) h1
          · exact absurd (Or.inr (Or.inr hb)) h1
          · exact hb
      rw [main1_run, if_neg h1, if_pos hbn]
  · rcases hm2 with h2 | h2 <;> rw [h2]
  · rcases hm2 with h2 | h2 <;> rw [h2] <;> simp
  · rcases hm2 with h2 | h2 <;> rw [h2] <;> simp

theorem claim_C4_config_errors_witness :
    main1_run 8 3 "avx" true true true true true = ([Event.errReport], 1)
    ∧ (main2_run 8 3 "avx" true true true true true).2 = 1
    ∧ Event.errReport ∈ (main2_run 8 3 "avx" true true true true true).1
    ∧ Event.summaryLine ∉ (main2_run 8 3 "avx" true true true true true).1 :=
  claim_C4_config_errors 8 3 "avx" true true (by decide)

/-- C6: every valid invocation of a block kernel — scalar (any bs), the
guarded hybrid and interleaved kernels (any bs), and the vectorized
kernel when bs is a multiple of 8 — on pack buffers packA, packB and
matrix C adds the bs-by-bs product of the packed blocks to the existing
contents of the bs-by-bs sub-block of C at offset (i0, j0)
(C_block += packA*packB, never overwriting), and leaves every element of
C outside that sub-block unchanged. -/
theorem claim_C6_block_kernel_frame (pa pb C : Mem) (N i0 j0 k0 bs : Nat)
    (hN : 0 < N) (hj : j0 + bs ≤ N) (p : Nat) :
    (matmul_block_scalar pa pb C N i0 j0 k0 bs p
      = if i0 ≤ p / N ∧ p / N < i0 + bs ∧ j0 ≤ p % N ∧ p % N < j0 + bs
        then C p + ∑ kk in Finset.range bs,
          pa ((p / N - i0)*bs + kk) * pb (kk*bs + (p % N - j0))
        else C p)
    ∧ (kernel_hybrid_p011 pa pb C N i0 j0 k0 bs p
      = if i0 ≤ p / N ∧ p / N < i0 + bs ∧ j0 ≤ p % N ∧ p % N < j0 + bs
        then C p + ∑ kk in Finset.range bs,
          pa ((p / N - i0)*bs + kk) * pb (kk*bs + (p % N - j0))
        else C p)
    ∧ (kernel_interleaved pa pb C N i0 j0 k0 bs p
      = if i0 ≤ p / N ∧ p / N < i0 + bs ∧ j0 ≤ p % N ∧ p % N < j0 + bs
        then C p + ∑ kk in Finset.range bs,
          pa ((p / N - i0)*bs + kk) * pb (kk*bs + (p % N - j0))
        else C p)
    ∧ (8 ∣ bs → kernel_avx pa pb C N i0 j0 k0 bs p
      = if i0 ≤ p / N ∧ p / N < i0 + bs ∧ j0 ≤ p % N ∧ p % N < j0 + bs
        then C p + ∑ kk in Finset.range bs,
          pa ((p / N - i0)*bs + kk) * pb (kk*bs + (p % N - j0))
        else C p) := by
  refine ⟨?_, ?_, ?_, fun h8 => ?_⟩
  · rw [matmul_block_scalar_spec pa pb C N i0 j0 k0 bs hN hj, addFun_blockH_apply]
  · rw [kernel_hybrid_p011_spec pa pb C N i0 j0 k0 bs hN hj, addFun_blockH_apply]
  · rw [kernel_interleaved_spec pa pb C N i0 j0 k0 bs hN hj, addFun_blockH_apply]
  · rw [kernel_avx_spec pa pb C N i0 j0 k0 bs hN hj h8, addFun_blockH_apply]

theorem claim_C6_block_kernel_frame_witness :
    matmul_block_scalar (fun _ => 1) (fun _ => 1) (fun _ => 1) 8 0 0 0 8 0 = 9 := by
  rw [(claim_C6_block_kernel_frame (fun _ => 1) (fun _ => 1) (fun _ => 1) 8 0 0 0 8
    (by decide) (by decide) 0).1]
  decide

/-- C1: for every N > 0 and every positive BS dividing N, running the
block iteration engine on the deterministically filled A, B and
zero-initialized C with the scalar block kernel — and, when BS is
additionally a multiple of 8 (the claim's condition for the vectorized,
hybrid and interleaved kernels), with the vectorized, guarded hybrid or
guarded interleaved kernel, or with part_004's inline block loop under
any mixing policy, burst parameters and initial policy state — yields
exactly the per-element values and the checksum of the whole-matrix
scalar reference kernel_scalar_whole: equality in the exact model, hence
well within an absolute/relative epsilon of 1e-6. -/
theorem claim_C1_equivalence (N BS : Nat) (A0 B0 pa0 pb0 C0w : Mem) (K : KernelFn)
    (mode : String) (AB SB : Int) (st0 : PolState)
    (hN : 0 < N) (hBS : 0 < BS) (hdvd : BS ∣ N)
    (hker : K = matmul_block_scalar
      ∨ (8 ∣ BS ∧ (K = kernel_avx ∨ K = kernel_hybrid_p011 ∨ K = kernel_interleaved))) :
    (∀ p, p < N*N →
        (run_benchmark (matrix_fill A0 N) (matrix_fill B0 N) zeroMem pa0 pb0 N BS K).C p
          = kernel_scalar_whole (matrix_fill A0 N) (matrix_fill B0 N) C0w N p)
    ∧ checksum (run_benchmark (matrix_fill A0 N) (matrix_fill B0 N) zeroMem pa0 pb0
          N BS K).C N
        = checksum (kernel_scalar_whole (matrix_fill A0 N) (matrix_fill B0 N) C0w N) N
    ∧ (8 ∣ BS →
        (∀ p, p < N*N →
          (part004_run (matrix_fill A0 N) (matrix_fill B0 N) zeroMem pa0 pb0 N BS
              mode AB SB st0).C p
            = kernel_scalar_whole (matrix_fill A0 N) (matrix_fill B0 N) C0w N p)
        ∧ checksum (part004_run (matrix_fill A0 N) (matrix_fill B0 N) zeroMem pa0 pb0
              N BS mode AB SB st0).C N
            = checksum (kernel_scalar_whole (matrix_fill A0 N) (matrix_fill B0 N)
                C0w N) N) := by
  have hK : KernelAdds K N BS := by
    rcases hker with hk | ⟨h8, hk⟩
    · subst hk
      intro pa pb C i0 j0 k0 hj
      exact matmul_block_scalar_spec pa pb C N i0 j0 k0 BS hN hj
    · exact family_kernel_adds N BS K hN h8 (Or.inr hk)
  have h1 : ∀ p, p < N*N →
      (run_benchmark (matrix_fill A0 N) (matrix_fill B0 N) zeroMem pa0 pb0 N BS K).C p
        = kernel_scalar_whole (matrix_fill A0 N) (matrix_fill B0 N) C0w N p :=
    fun p hp => engine_vs_whole (matrix_fill A0 N) (matrix_fill B0 N) pa0 pb0 C0w
      N BS K hK hN hBS hdvd p hp
  refine ⟨h1, checksum_congr _ _ N h1, fun h8 => ?_⟩
  have h2 : ∀ p, p < N*N →
      (part004_run (matrix_fill A0 N) (matrix_fill B0 N) zeroMem pa0 pb0 N BS
          mode AB SB st0).C p
        = kernel_scalar_whole (matrix_fill A0 N) (matrix_fill B0 N) C0w N p :=
    fun p hp => part004_vs_whole (matrix_fill A0 N) (matrix_fill B0 N) pa0 pb0 C0w
      N BS mode AB SB st0 hN hBS hdvd h8 p hp
  exact ⟨h2, checksum_congr _ _ N h2⟩

theorem claim_C1_equivalence_witness :
    checksum (run_benchmark (matrix_fill zeroMem 8) (matrix_fill zeroMem 8) zeroMem
        zeroMem zeroMem 8 4 matmul_block_scalar).C 8
      = checksum (kernel_scalar_whole (matrix_fill zeroMem 8) (matrix_fill zeroMem 8)
          zeroMem 8) 8 :=
  (claim_C1_equivalence 8 4 zeroMem zeroMem zeroMem zeroMem zeroMem matmul_block_scalar
    "avx" 4 2 ⟨1, true, 4, 2⟩ (by decide) (by decide) (by decide) (Or.inl rfl)).2.1

/-- C8 (counterexample): with seed = 0 the driver seeds the generator from
the current time, so two runs of identical (N, BS, mode = "mixed", seed = 0)
started at different times (here times 1 and 2) make different kernel
selections already at block 0 — the claim's "identical kernel-selection
sequence including seed = 0" is false. -/
theorem claim_C8_counterexample :
    selAt "mixed" 4 2 (initPol 4 2 0 1) 0 ≠ selAt "mixed" 4 2 (initPol 4 2 0 2) 0 := by
  decide

/-- C8 (amended): for every pair of runs with identical (N, BS, mode,
seed): when seed is nonzero the two runs start from the same generator
state, so the random and burst mixing policies produce an identical
kernel-selection sequence; and the checksum is identical in every case —
even for seed = 0 with different start times — because every selection
stream accumulates the same exact product. -/
theorem claim_C8_determinism (N BS : Nat) (mode : String) (AB SB : Int)
    (seed t1 t2 : Nat) (A0 B0 pa0 pb0 pa1 pb1 : Mem)
    (hN : 0 < N) (hBS : 0 < BS) (hdvd : BS ∣ N) (h8 : 8 ∣ BS) :
    (seed ≠ 0 → ∀ t, selAt mode AB SB (initPol AB SB seed t1) t
        = selAt mode AB SB (initPol AB SB seed t2) t)
    ∧ checksum (part004_run (matrix_fill A0 N) (matrix_fill B0 N) zeroMem pa0 pb0
          N BS mode AB SB (initPol AB SB seed t1)).C N
      = checksum (part004_run (matrix_fill A0 N) (matrix_fill B0 N) zeroMem pa1 pb1
          N BS mode AB SB (initPol AB SB seed t2)).C N := by
  constructor
  · intro hseed t
    have hst : initPol AB SB seed t1 = initPol AB SB seed t2 := by
      simp only [initPol, initial_rng]
      rw [if_pos hseed, if_pos hseed]
    rw [hst]
  · rw [checksum, checksum, accum_spec, accum_spec,
      part004_C (matrix_fill A0 N) (matrix_fill B0 N) zeroMem pa0 pb0 N BS mode AB SB
        (initPol AB SB seed t1) hN hBS hdvd h8,
      part004_C (matrix_fill A0 N) (matrix_fill B0 N) zeroMem pa1 pb1 N BS mode AB SB
        (initPol AB SB seed t2) hN hBS hdvd h8]

theorem claim_C8_determinism_witness :
    ((5 : Nat) ≠ 0 → ∀ t, selAt "mixed" 4 2 (initPol 4 2 5 1) t
        = selAt "mixed" 4 2 (initPol 4 2 5 2) t)
    ∧ checksum (part004_run (matrix_fill zeroMem 8) (matrix_fill zeroMem 8) zeroMem
          zeroMem zeroMem 8 8 "mixed" 4 2 (initPol 4 2 5 1)).C 8
      = checksum (part004_run (matrix_fill zeroMem 8) (matrix_fill zeroMem 8) zeroMem
          zeroMem zeroMem 8 8 "mixed" 4 2 (initPol 4 2 5 2)).C 8 :=
  claim_C8_determinism 8 8 "mixed" 4 2 5 1 2 zeroMem zeroMem zeroMem zeroMem zeroMem
    zeroMem (by decide) (by decide) (by decide) (by decide)

theorem bound_to_cube (N : Nat) (z : Int) (m : Nat) (hm : m ≤ N)
    (h : z ≤ (10^4 : Int) * m) : z ≤ ((10^4 * N^3 : Nat) : Int) := by
  have hN3 : N ≤ N^3 := Nat.le_self_pow (by norm_num) N
  have h1 : m ≤ N^3 := le_trans hm hN3
  have h2 : ((m : Nat) : Int) ≤ ((N^3 : Nat) : Int) := by exact_mod_cast h1
  have h3 : (10^4 : Int) * m ≤ (10^4 : Int) * ((N^3 : Nat) : Int) := by nlinarith
  calc z ≤ (10^4 : Int) * m := h
    _ ≤ (10^4 : Int) * ((N^3 : Nat) : Int) := h3
    _ = ((10^4 * N^3 : Nat) : Int) := by push_cast; ring

theorem checksum_prefix_bounds (A0 B0 : Mem) (C : Mem) (N q : Nat)
    (hq : q ≤ N*N)
    (hC : ∀ p, p < N*N → C p = dotAB (matrix_fill A0 N) (matrix_fill B0 N) N p) :
    0 ≤ (∑ i in Finset.range q, C i)
    ∧ (∑ i in Finset.range q, C i) ≤ ((10^4 * N^3 : Nat) : Int) := by
  have hterm : ∀ i, i < q → 0 ≤ C i ∧ C i ≤ (10^4 : Int) * N := by
    intro i hi
    rw [hC i (lt_of_lt_of_le hi hq)]
    exact dotAB_bounds A0 B0 N i (lt_of_lt_of_le hi hq)
  constructor
  · exact Finset.sum_nonneg fun i hi => (hterm i (Finset.mem_range.mp hi)).1
  · calc (∑ i in Finset.range q, C i)
        ≤ ∑ _i in Finset.range q, (10^4 : Int)*N :=
          Finset.sum_le_sum fun i hi => (hterm i (Finset.mem_range.mp hi)).2
      _ = (q : Int) * ((10^4 : Int)*N) := by
          rw [Finset.sum_const, Finset.card_range, nsmul_eq_mul]
      _ ≤ ((10^4 * N^3 : Nat) : Int) := by
          have hq2 : (q : Int) ≤ ((N*N : Nat) : Int) := by exact_mod_cast hq
          have hnn : (0 : Int) ≤ (10^4 : Int)*N := by positivity
          calc (q : Int) * ((10^4 : Int)*N)
              ≤ ((N*N : Nat) : Int) * ((10^4 : Int)*N) :=
                mul_le_mul_of_nonneg_right hq2 hnn
            _ = ((10^4 * N^3 : Nat) : Int) := by push_cast; ring

/-- C9: every element of A and B is an integer in [1, 100], so every
intermediate accumulation (every prefix of every per-element dot product)
and the final checksum are integers bounded by 10^4 * N^3; whenever
10^4 * N^3 < 2^53 all of these integers are exactly representable in IEEE
double (modelled by `exactDouble`), so in the exact model that double
arithmetic then realizes, every block strategy and every mixing policy
produces the identical — bit-identical, not merely within 1e-6 — C matrix
and checksum as the whole-matrix scalar reference. -/
theorem claim_C9_exact_integers (N BS : Nat) (A0 B0 pa0 pb0 : Mem) (K : KernelFn)
    (mode : String) (AB SB : Int) (st0 : PolState)
    (hN : 0 < N) (hBS : 0 < BS) (hdvd : BS ∣ N) (h8 : 8 ∣ BS)
    (hker : K = matmul_block_scalar ∨ K = kernel_avx ∨ K = kernel_hybrid_p011
      ∨ K = kernel_interleaved)
    (h53 : 10^4 * N^3 < 2^53) :
    (∀ i, 1 ≤ fillv i ∧ fillv i ≤ 100)
    ∧ (∀ p m, p < N*N → m ≤ N →
        0 ≤ dotPrefix (matrix_fill A0 N) (matrix_fill B0 N) N p m
        ∧ exactDouble (dotPrefix (matrix_fill A0 N) (matrix_fill B0 N) N p m))
    ∧ (∀ p, p < N*N →
        (run_benchmark (matrix_fill A0 N) (matrix_fill B0 N) zeroMem pa0 pb0 N BS K).C p
          = kernel_scalar_whole (matrix_fill A0 N) (matrix_fill B0 N) zeroMem N p
      ∧ (part004_run (matrix_fill A0 N) (matrix_fill B0 N) zeroMem pa0 pb0 N BS
            mode AB SB st0).C p
          = kernel_scalar_whole (matrix_fill A0 N) (matrix_fill B0 N) zeroMem N p
      ∧ exactDouble
          ((run_benchmark (matrix_fill A0 N) (matrix_fill B0 N) zeroMem pa0 pb0
              N BS K).C p))
    ∧ (∀ q, q ≤ N*N →
        0 ≤ (∑ i in Finset.range q,
              (run_benchmark (matrix_fill A0 N) (matrix_fill B0 N) zeroMem pa0 pb0
                N BS K).C i)
        ∧ exactDouble (∑ i in Finset.range q,
            (run_benchmark (matrix_fill A0 N) (matrix_fill B0 N) zeroMem pa0 pb0
              N BS K).C i))
    ∧ checksum ((run_benchmark (matrix_fill A0 N) (matrix_fill B0 N) zeroMem pa0 pb0
          N BS K).C) N
        = checksum (kernel_scalar_whole (matrix_fill A0 N) (matrix_fill B0 N)
            zeroMem N) N
    ∧ exactDouble (checksum ((run_benchmark (matrix_fill A0 N) (matrix_fill B0 N)
        zeroMem pa0 pb0 N BS K).C) N) := by
  have hK := family_kernel_adds N BS K hN h8 hker
  have h53le : 10^4 * N^3 ≤ 2^53 := le_of_lt h53
  have hrun := run_benchmark_C (matrix_fill A0 N) (matrix_fill B0 N) zeroMem pa0 pb0
    N BS K hK hN hBS hdvd
  have hrunC : ∀ p, p < N*N →
      (run_benchmark (matrix_fill A0 N) (matrix_fill B0 N) zeroMem pa0 pb0 N BS K).C p
        = dotAB (matrix_fill A0 N) (matrix_fill B0 N) N p := by
    intro p hp
    rw [hrun]
    simp [zeroMem, hp]
  refine ⟨fillv_bounds, ?_, ?_, ?_, ?_, ?_⟩
  · intro p m hp hm
    obtain ⟨hlo, hhi⟩ := dotPrefix_bounds A0 B0 N p m hp hm
    exact ⟨hlo, exactDouble_of_bounds _ (10^4 * N^3) hlo
      (bound_to_cube N _ m hm hhi) h53le⟩
  · intro p hp
    refine ⟨engine_vs_whole (matrix_fill A0 N) (matrix_fill B0 N) pa0 pb0 zeroMem
        N BS K hK hN hBS hdvd p hp,
      part004_vs_whole (matrix_fill A0 N) (matrix_fill B0 N) pa0 pb0 zeroMem
        N BS mode AB SB st0 hN hBS hdvd h8 p hp, ?_⟩
    rw [hrunC p hp]
    obtain ⟨hlo, hhi⟩ := dotAB_bounds A0 B0 N p hp
    exact exactDouble_of_bounds _ (10^4 * N^3) hlo
      (bound_to_cube N _ N (le_refl N) hhi) h53le
  · intro q hq
    obtain ⟨hlo, hhi⟩ := checksum_prefix_bounds A0 B0 _ N q hq hrunC
    exact ⟨hlo, exactDouble_of_bounds _ (10^4 * N^3) hlo hhi h53le⟩
  · exact checksum_congr _ _ N (fun p hp => engine_vs_whole (matrix_fill A0 N)
      (matrix_fill B0 N) pa0 pb0 zeroMem N BS K hK hN hBS hdvd p hp)
  · rw [checksum, accum_spec, zero_add]
    obtain ⟨hlo, hhi⟩ := checksum_prefix_bounds A0 B0 _ N (N*N) (le_refl _) hrunC
    exact exactDouble_of_bounds _ (10^4 * N^3) hlo hhi h53le

theorem claim_C9_exact_integers_witness :
    (∀ i, 1 ≤ fillv i ∧ fillv i ≤ 100)
    ∧ exactDouble (checksum ((run_benchmark (matrix_fill zeroMem 8)
        (matrix_fill zeroMem 8) zeroMem zeroMem zeroMem 8 8 matmul_block_scalar).C) 8) := by
  have h := claim_C9_exact_integers 8 8 zeroMem zeroMem zeroMem zeroMem
    matmul_block_scalar "mixed" 4 2 ⟨1, true, 4, 2⟩ (by decide) (by decide)
    (by decide) (by decide) (Or.inl rfl) (by decide)
  exact ⟨h.1, h.2.2.2.2.2⟩

end T1Arqavan
